import Mathlib

/-!
Verification of the Conversly/db-ingestor ingestion pipeline.

This file gives a shallow embedding, in Lean 4, of the parts of the Go
source that the specification claims talk about:

* the recursive text chunker (`internal/utils` Chunker: `NewChunker`,
  `ChunkText`, `recursiveSplit`, `splitBySize`, `applyOverlap`), with text
  modelled as `List Char` (one element per Go rune);
* the two-channel worker pool (`internal/api/ingestion/worker.go`:
  `Enqueue`, `EnqueueIngestion`, the quit signal);
* the embedding worker (`processEmbeddingJob`, `requeueFailedChunks`,
  `persistEmbeddingsWithStatus`), with the external embedder and database
  outcomes supplied as oracle parameters and all externally visible calls
  reified as a list of `WorkerAction`s;
* admission (`Service.Process`) and the orchestrator's per-datasource
  embedding-job dispatch (`ProcessIngestionJob`), and the document branch
  of `processAllSources` (download failure handling);
* the CSV decoder (`internal/processors` CSVProcessor.Process), with the
  Go standard csv reader (quoted fields, blank-line skipping, leading
  white-space trimming and the default field-count consistency check)
  modelled on the normalized byte stream.

Time stamps, logging payloads and the HTTP layer are external to every
claim and are not modelled; log calls that carry no decision are dropped,
while status writes, inserts and enqueues are kept as explicit actions.
-/

namespace DbIngestor

/-! ## Rune-level string helpers (Go `strings` package semantics) -/

/-- Go `unicode.IsSpace` for the space classes relevant to this code base
(ASCII white space; `strings.TrimSpace` uses this predicate). -/
def goIsSpace (c : Char) : Bool :=
  c = ' ' || c = '\t' || c = '\n' || c = '\r' || c = Char.ofNat 11 || c = Char.ofNat 12

/-- Go `strings.TrimSpace` on runes: drop white space from both ends. -/
def trimSpace (s : List Char) : List Char :=
  ((s.dropWhile goIsSpace).reverse.dropWhile goIsSpace).reverse

/-- Index of the first occurrence of `sep` as a contiguous sublist of `t`
(Go `strings.Index`), `none` when absent. -/
def findSub (sep : List Char) : List Char → Option Nat
  | [] => if sep.isPrefixOf [] then some 0 else none
  | c :: t =>
    if sep.isPrefixOf (c :: t) then some 0
    else (findSub sep t).map (fun i => i + 1)

/-- Go `strings.Contains`. -/
def containsSub (t sep : List Char) : Bool :=
  (findSub sep t).isSome

/-- One splitting pass of Go `strings.Split`, driven by a fuel counter so
the definition is structural (the fuel is initialised with `t.length`,
which is adequate because every round consumes at least one rune when the
separator is non-empty). -/
def splitAux (sep : List Char) : Nat → List Char → List (List Char)
  | 0, t => [t]
  | n + 1, t =>
    match findSub sep t with
    | none => [t]
    | some i => t.take i :: splitAux sep n (t.drop (i + sep.length))

/-- Go `strings.Split t sep` on runes. -/
def splitOnSub (sep t : List Char) : List (List Char) :=
  splitAux sep t.length t

/-- Rune index of the last `' '` in `l` (`strings.LastIndex(l, " ")`;
the Go byte index of a single-byte ASCII space is positive exactly when
this rune index is positive, and slicing after it is the same suffix). -/
def lastSpacePos : List Char → Option Nat
  | [] => none
  | c :: t =>
    match lastSpacePos t with
    | some k => some (k + 1)
    | none => if c = ' ' then some 0 else none

/-! ## The Chunker (`internal/utils`) -/

/-- The Chunker struct.  The Go fields are `int`; `NewChunker` (the only
constructor used) always leaves them non-negative, so they are carried as
`Nat` here. -/
structure Chunker where
  chunkSize : Nat
  chunkOverlap : Nat
  separators : List (List Char)
deriving Repr

/-- The ordered separator list of `NewChunker`. -/
def goSeparators : List (List Char) :=
  ["\n\n".toList, "\n".toList, ". ".toList, "? ".toList, "! ".toList,
   "; ".toList, ", ".toList, " ".toList]

/-- Go `NewChunker`: replace a non-positive size by 1000, a negative
overlap by 0, and an overlap that reaches the size by `chunkSize / 4`
(Go integer division truncates toward zero, as does `Int` division here;
the dividend is positive so all division conventions agree). -/
def NewChunker (chunkSize chunkOverlap : Int) : Chunker :=
  let cs : Int := if chunkSize ≤ 0 then 1000 else chunkSize
  let ov : Int := if chunkOverlap < 0 then 0 else chunkOverlap
  let ov : Int := if cs ≤ ov then cs / 4 else ov
  { chunkSize := cs.toNat, chunkOverlap := ov.toNat, separators := goSeparators }

/-- Go `Chunker.splitBySize` (fixed-size rune windows advancing by
`chunkSize - chunkOverlap`, or by `chunkSize` when that step is not
positive).  Fuel-driven structural recursion; the fuel is initialised
with the text length, adequate because the step is at least 1. -/
def splitBySizeAux (c : Chunker) : Nat → List Char → List (List Char)
  | _, [] => []
  | 0, _ => []
  | n + 1, l =>
    let chunk := trimSpace (l.take c.chunkSize)
    let step := if c.chunkSize - c.chunkOverlap = 0 then c.chunkSize
                else c.chunkSize - c.chunkOverlap
    (if chunk ≠ [] then [chunk] else []) ++ splitBySizeAux c n (l.drop step)

/-- Go `Chunker.splitBySize`. -/
def splitBySize (c : Chunker) (l : List Char) : List (List Char) :=
  splitBySizeAux c l.length l

/-- The overlap taken from the end of the previous chunk in
`applyOverlap`: the last `chunkOverlap` runes, truncated forward past the
last space when that space is not at position 0. -/
def overlapTail (c : Chunker) (prev : List Char) : List Char :=
  match lastSpacePos (prev.drop (prev.length - c.chunkOverlap)) with
  | some idx =>
    if 0 < idx then (prev.drop (prev.length - c.chunkOverlap)).drop (idx + 1)
    else prev.drop (prev.length - c.chunkOverlap)
  | none => prev.drop (prev.length - c.chunkOverlap)

/-- One element of the `applyOverlap` result: prepend the previous
chunk's overlap unless the chunk already starts with it or the overlap is
empty. -/
def overlapStep (c : Chunker) (prev cur : List Char) : List Char :=
  if (overlapTail c prev).isPrefixOf cur = false ∧ overlapTail c prev ≠ [] then
    overlapTail c prev ++ ' ' :: cur
  else cur

/-- The pairwise pass of Go `applyOverlap`; `result[i]` is built from the
input list's `chunks[i-1]` and `chunks[i]`. -/
def applyOverlapGo (c : Chunker) : List Char → List (List Char) → List (List Char)
  | _, [] => []
  | prev, cur :: rest => overlapStep c prev cur :: applyOverlapGo c cur rest

/-- Go `Chunker.applyOverlap` (lists of at most one chunk are returned
unchanged). -/
def applyOverlap (c : Chunker) : List (List Char) → List (List Char)
  | [] => []
  | [single] => [single]
  | first :: rest => first :: applyOverlapGo c first rest

/-- The first separator of `seps` contained in `text`, together with the
separators after it (Go `recursiveSplit`, the bestSep search). -/
def firstSep : List (List Char) → List Char → Option (List Char × List (List Char))
  | [], _ => none
  | s :: rest, text =>
    if containsSub text s then some (s, rest) else firstSep rest text

/-- The flush block of Go `recursiveSplit`: when the current chunk is
non-empty, append its trimmed form to the emitted chunks unless trimming
leaves nothing. -/
def flushChunks (st : List (List Char) × List Char) : List (List Char) :=
  if st.2 ≠ [] ∧ trimSpace st.2 ≠ [] then st.1 ++ [trimSpace st.2] else st.1

/-- One step of the greedy reassembly loop of Go `recursiveSplit`.  The
state is the pair (emitted chunks, current chunk); `g` is the recursive
split applied to an oversized segment with the next separator level. -/
def greedyStep (c : Chunker) (best : List Char) (g : List Char → List (List Char))
    (st : List (List Char) × List Char) (part0 : List Char) :
    List (List Char) × List Char :=
  if trimSpace part0 = [] then st
  else if (if st.2 = [] then trimSpace part0
           else st.2 ++ best ++ trimSpace part0).length ≤ c.chunkSize then
    (st.1, if st.2 = [] then trimSpace part0 else st.2 ++ best ++ trimSpace part0)
  else if c.chunkSize < (trimSpace part0).length then
    (flushChunks st ++ g (trimSpace part0), [])
  else
    (flushChunks st, trimSpace part0)

/-- Go `Chunker.recursiveSplit`.  Fuel-driven structural recursion; the
fuel is initialised with the text length, adequate because each recursive
call is on a strict sub-segment (`recursiveSplitAux_fuel` below shows the
result does not depend on the fuel once it reaches the text length). -/
def recursiveSplitAux (c : Chunker) : Nat → List (List Char) → List Char → List (List Char)
  | 0, _, _ => []
  | fuel + 1, seps, text =>
    if text.length ≤ c.chunkSize then
      if trimSpace text ≠ [] then [trimSpace text] else []
    else
      match firstSep seps text with
      | none => splitBySize c text
      | some (best, rest) =>
        let nextSeps := if rest = [] then seps else rest
        let chunks := flushChunks ((splitOnSub best text).foldl
          (greedyStep c best (fun part => recursiveSplitAux c fuel nextSeps part)) ([], []))
        if 0 < c.chunkOverlap ∧ 1 < chunks.length then applyOverlap c chunks else chunks

/-- Go `Chunker.ChunkText`. -/
def ChunkText (c : Chunker) (text : List Char) : List (List Char) :=
  if text = [] then []
  else
    let t := trimSpace text
    if t.length ≤ c.chunkSize then [t]
    else recursiveSplitAux c t.length c.separators t

/-- The number of separator levels at or after the first separator
present in `t` (0 when none is present); each level can contribute one
overlap prefix to a chunk. -/
def sepBudget : List (List Char) → List Char → Nat
  | [], _ => 0
  | s :: rest, t => if containsSub t s then rest.length + 1 else sepBudget rest t

/-! ## Data model (`internal/types`, `internal/api/ingestion`) -/

/-- Metadata values (`map[string]interface{}` in Go); only the variants
this code base stores are modelled. -/
inductive MetaVal where
  | str (v : String)
  | num (v : Nat)
  | rowData (l : List (String × String))
  | headerList (l : List String)
deriving DecidableEq, Repr

/-- Overwriting insertion into a metadata map (Go map assignment). -/
def metaSet (k : String) (v : MetaVal) (m : List (String × MetaVal)) :
    List (String × MetaVal) :=
  (k, v) :: m.filter (fun p => p.1 ≠ k)

/-- `types.ContentChunk` (the current, string-keyed generation used by
the worker; `Embedding []float64` is carried abstractly as a list that is
empty exactly when no embedding has been attached). -/
structure ContentChunk where
  datasourceID : String
  chunkIndex : Nat
  content : String
  embedding : List Int
  metadata : List (String × MetaVal)
deriving DecidableEq, Repr

/-- A decoder output chunk before the orchestrator adorns it
(`processors` chunk: no datasource id yet). -/
structure PChunk where
  content : String
  chunkIndex : Nat
  metadata : List (String × MetaVal)
deriving DecidableEq, Repr

/-- `types.ProcessedContent` (time stamp omitted: it never feeds a
decision). -/
structure ProcessedContent where
  sourceType : String
  content : String
  topic : String
  chunks : List PChunk
  metadata : List (String × MetaVal)
deriving DecidableEq, Repr

/-- `types.WebsiteURL`. -/
structure WebsiteURL where
  datasourceId : String
  url : String
deriving DecidableEq, Repr

/-- `types.QAPair`. -/
structure QAPair where
  datasourceId : String
  question : String
  answer : String
  citations : String
deriving DecidableEq, Repr

/-- `types.DocumentMetadata`. -/
structure DocumentMetadata where
  datasourceId : String
  url : String
  downloadUrl : String
  pathname : String
  contentType : String
  contentDisposition : String
deriving DecidableEq, Repr

/-- `types.TextContent`. -/
structure TextContent where
  datasourceId : String
  content : String
deriving DecidableEq, Repr

/-- `types.ProcessingOptions`. -/
structure ProcessingOptions where
  chunkSize : Int
  chunkOverlap : Int
deriving DecidableEq, Repr

/-- `types.ProcessRequest`. -/
structure ProcessRequest where
  userId : String
  chatbotId : String
  websiteUrls : List WebsiteURL
  qandaData : List QAPair
  documents : List DocumentMetadata
  textContent : List TextContent
  options : Option ProcessingOptions
deriving DecidableEq, Repr

/-- `types.SourceResult` (time stamp omitted). -/
structure SourceResult where
  datasourceID : String
  sourceType : String
  source : String
  status : String
  message : String
  error : String
  chunkCount : Nat
deriving DecidableEq, Repr

/-- `types.ProcessResponse`, the fields the admission path fills
(results and chunk counters stay zero there; time stamp omitted). -/
structure ProcessResponse where
  jobID : String
  status : String
  message : String
  totalSources : Nat
deriving DecidableEq, Repr

/-- `ingestion.EmbeddingJob` (creation time omitted). -/
structure EmbeddingJob where
  jobID : String
  userID : String
  chatbotID : String
  chunks : List ContentChunk
  retryCount : Nat
deriving DecidableEq, Repr

/-- `ingestion.IngestionJob`. -/
structure IngestionJob where
  jobID : String
  request : ProcessRequest
deriving DecidableEq, Repr

/-- `maxEmbeddingRetries` (worker.go). -/
def maxEmbeddingRetries : Nat := 3

/-! ## Worker pool (`worker.go`): channels as bounded queues -/

/-- The observable state of a `WorkerPool`: both buffered channels as
queues bounded by the shared capacity, and whether `quit` is closed. -/
structure WorkerPool where
  quitClosed : Bool
  embeddingJobs : List EmbeddingJob
  ingestionJobs : List IngestionJob
  capacity : Nat
deriving DecidableEq, Repr

/-- `WorkerPool.Enqueue`: non-blocking try-send on the embedding channel;
`false` if `quit` is closed (the first select) or the channel is full
(the default of the second select). -/
def Enqueue (wp : WorkerPool) (job : EmbeddingJob) : Bool × WorkerPool :=
  if wp.quitClosed then (false, wp)
  else if wp.capacity ≤ wp.embeddingJobs.length then (false, wp)
  else (true, { wp with embeddingJobs := wp.embeddingJobs ++ [job] })

/-- `WorkerPool.EnqueueIngestion`: same contract on the ingestion
channel. -/
def EnqueueIngestion (wp : WorkerPool) (job : IngestionJob) : Bool × WorkerPool :=
  if wp.quitClosed then (false, wp)
  else if wp.capacity ≤ wp.ingestionJobs.length then (false, wp)
  else (true, { wp with ingestionJobs := wp.ingestionJobs ++ [job] })

/-- The `close(wp.quit)` effect of `WorkerPool.Stop` (the wait for
in-flight workers has no effect on the queue state). -/
def StopSignal (wp : WorkerPool) : WorkerPool :=
  { wp with quitClosed := true }

/-! ## Embedding worker (`worker.go`) -/

/-- One row handed to `BatchInsertEmbeddings` (`loaders.EmbeddingData`). -/
structure EmbeddingRow where
  text : String
  vector : List Int
  dataSourceID : Option String
  citation : Option String
deriving DecidableEq, Repr

/-- Externally visible calls the embedding worker makes, in order. -/
inductive WorkerAction where
  | insertEmbeddings (userID chatbotID : String) (rows : List EmbeddingRow)
  | statusWrite (ids : List String) (status : String)
  | enqueueRetry (job : EmbeddingJob) (accepted : Bool)
  | warnSkippedNoEmbedder
deriving DecidableEq, Repr

/-- The external outcomes of one worker pass: whether an embedder and a
database are configured, the per-chunk embedder result, and the results
of the two database calls. -/
structure WorkerEnv where
  hasEmbedder : Bool
  hasDb : Bool
  embedOutcome : ContentChunk → Option (List Int)
  insertOk : Bool
  statusOk : Bool

/-- Keep the first occurrence of each element (the Go code collects ids
in a `map[string]bool`; only the member set is observable, iteration
order is arbitrary, and first-occurrence order is fixed here). -/
def dedupKeep (l : List String) : List String :=
  l.foldl (fun acc x => if acc.contains x then acc else acc ++ [x]) []

/-- The distinct non-empty datasource ids of a chunk list. -/
def distinctDatasourceIDs (chunks : List ContentChunk) : List String :=
  dedupKeep (chunks.filterMap fun ch =>
    if ch.datasourceID = "" then none else some ch.datasourceID)

/-- The citation pointer extracted from chunk metadata in
`persistEmbeddingsWithStatus` (present and non-empty string). -/
def chunkCitation (ch : ContentChunk) : Option String :=
  match ch.metadata.lookup "citation" with
  | some (MetaVal.str v) => if v = "" then none else some v
  | _ => none

/-- The rows `persistEmbeddingsWithStatus` builds for the batch insert:
one per chunk carrying an embedding. -/
def embeddingRowsOf (job : EmbeddingJob) : List EmbeddingRow :=
  job.chunks.filterMap fun ch =>
    if ch.embedding = [] then none
    else some { text := ch.content, vector := ch.embedding,
                dataSourceID := if ch.datasourceID = "" then none else some ch.datasourceID,
                citation := chunkCitation ch : EmbeddingRow }

/-- The distinct non-empty datasource ids of the chunks carrying an
embedding (the `dataSourceIDsMap` of `persistEmbeddingsWithStatus`). -/
def persistDsIds (job : EmbeddingJob) : List String :=
  dedupKeep (job.chunks.filterMap fun ch =>
    if ch.embedding = [] then none
    else if ch.datasourceID = "" then none else some ch.datasourceID)

/-- `persistEmbeddingsWithStatus`: build the rows for chunks that carry
an embedding, insert them, and when `markCompleted` write COMPLETED for
the distinct datasource ids of those chunks.  Returns the emitted actions
and whether the Go function returned without error. -/
def persistEmbeddingsWithStatus (env : WorkerEnv) (job : EmbeddingJob)
    (markCompleted : Bool) : List WorkerAction × Bool :=
  if embeddingRowsOf job = [] then ([], true)
  else if env.insertOk = false then
    ([WorkerAction.insertEmbeddings job.userID job.chatbotID (embeddingRowsOf job)], false)
  else if markCompleted ∧ persistDsIds job ≠ [] then
    ([WorkerAction.insertEmbeddings job.userID job.chatbotID (embeddingRowsOf job),
      WorkerAction.statusWrite (persistDsIds job) "COMPLETED"], env.statusOk)
  else ([WorkerAction.insertEmbeddings job.userID job.chatbotID (embeddingRowsOf job)], true)

/-- The retry job `requeueFailedChunks` constructs: one more `-retry`
suffix, one more retry count, exactly the failed chunks. -/
def retryJobOf (originalJob : EmbeddingJob) (failedChunks : List ContentChunk) :
    EmbeddingJob :=
  { jobID := originalJob.jobID ++ "-retry", userID := originalJob.userID,
    chatbotID := originalJob.chatbotID, chunks := failedChunks,
    retryCount := originalJob.retryCount + 1 }

/-- `requeueFailedChunks`: past the retry budget, write FAILED for the
failed chunks' datasource ids; otherwise build the retry job and try a
non-blocking enqueue, writing FAILED if the queue refuses. -/
def requeueFailedChunks (env : WorkerEnv) (wp : WorkerPool)
    (originalJob : EmbeddingJob) (failedChunks : List ContentChunk) :
    WorkerPool × List WorkerAction :=
  if maxEmbeddingRetries ≤ originalJob.retryCount then
    (wp, if env.hasDb ∧ distinctDatasourceIDs failedChunks ≠ [] then
      [WorkerAction.statusWrite (distinctDatasourceIDs failedChunks) "FAILED"] else [])
  else
    match Enqueue wp (retryJobOf originalJob failedChunks) with
    | (true, wp2) => (wp2, [WorkerAction.enqueueRetry (retryJobOf originalJob failedChunks) true])
    | (false, wp2) =>
      (wp2, WorkerAction.enqueueRetry (retryJobOf originalJob failedChunks) false ::
        (if env.hasDb ∧ distinctDatasourceIDs failedChunks ≠ [] then
          [WorkerAction.statusWrite (distinctDatasourceIDs failedChunks) "FAILED"] else []))

/-- The chunk list after the embedding loop: Go mutates `job.Chunks[i]`
in place, attaching the embedding to each chunk that embedded. -/
def processedChunks (env : WorkerEnv) (job : EmbeddingJob) : List ContentChunk :=
  job.chunks.map fun ch =>
    match env.embedOutcome ch with
    | some v => { ch with embedding := v }
    | none => ch

/-- The chunks whose embedding call succeeded, with embeddings attached
(in iteration order). -/
def successfulChunksOf (env : WorkerEnv) (job : EmbeddingJob) : List ContentChunk :=
  job.chunks.filterMap fun ch =>
    (env.embedOutcome ch).map fun v => { ch with embedding := v }

/-- The chunks whose embedding call failed (in iteration order). -/
def failedChunksOf (env : WorkerEnv) (job : EmbeddingJob) : List ContentChunk :=
  job.chunks.filter fun ch => (env.embedOutcome ch).isNone

/-- The job copy with only the successfully embedded chunks that is
handed to the persist step (its Go literal leaves `RetryCount` zero). -/
def successJobOf (env : WorkerEnv) (job : EmbeddingJob) : EmbeddingJob :=
  { jobID := job.jobID, userID := job.userID, chatbotID := job.chatbotID,
    chunks := successfulChunksOf env job, retryCount := 0 }

/-- `processEmbeddingJob`: embed every chunk, persist the successful
ones (COMPLETED only when nothing failed), requeue the whole mutated
chunk set on a persist error, and requeue the failed chunks otherwise. -/
def processEmbeddingJob (env : WorkerEnv) (wp : WorkerPool) (job : EmbeddingJob) :
    WorkerPool × List WorkerAction :=
  if env.hasEmbedder = false then (wp, [WorkerAction.warnSkippedNoEmbedder])
  else if env.hasDb ∧ successfulChunksOf env job ≠ [] then
    if (persistEmbeddingsWithStatus env (successJobOf env job)
        (decide (failedChunksOf env job = []))).2 = false then
      ((requeueFailedChunks env wp job (processedChunks env job)).1,
        (persistEmbeddingsWithStatus env (successJobOf env job)
          (decide (failedChunksOf env job = []))).1 ++
          (requeueFailedChunks env wp job (processedChunks env job)).2)
    else if failedChunksOf env job ≠ [] then
      ((requeueFailedChunks env wp job (failedChunksOf env job)).1,
        (persistEmbeddingsWithStatus env (successJobOf env job)
          (decide (failedChunksOf env job = []))).1 ++
          (requeueFailedChunks env wp job (failedChunksOf env job)).2)
    else
      (wp, (persistEmbeddingsWithStatus env (successJobOf env job)
        (decide (failedChunksOf env job = []))).1)
  else if failedChunksOf env job ≠ [] then
    requeueFailedChunks env wp job (failedChunksOf env job)
  else (wp, [])

/-- One retry generation: job `b` is the retry job some worker pass over
job `a` submitted to the queue. -/
def RetryStep (a b : EmbeddingJob) : Prop :=
  ∃ env wp accepted, WorkerAction.enqueueRetry b accepted ∈ (processEmbeddingJob env wp a).2

/-! ## Admission and orchestrator dispatch (`controller.go` service) -/

/-- `calculateTotalSources`. -/
def calculateTotalSources (req : ProcessRequest) : Nat :=
  req.websiteUrls.length + req.qandaData.length + req.documents.length +
    req.textContent.length

/-- `Service.Process`: enqueue the ingestion job and answer immediately;
the job id is produced by the external UUIDv4 generator and is passed in
here.  A refused enqueue is the only error path. -/
def serviceProcess (wp : WorkerPool) (jobID : String) (req : ProcessRequest) :
    WorkerPool × Except String ProcessResponse :=
  let job : IngestionJob := { jobID := jobID, request := req }
  match EnqueueIngestion wp job with
  | (false, wp2) => (wp2, Except.error "ingestion queue is full, try again later")
  | (true, wp2) =>
    (wp2, Except.ok { jobID := jobID, status := "processing",
                      message := "Job queued for processing",
                      totalSources := calculateTotalSources req })

/-- Partition the collected chunks by datasource id, preserving
first-occurrence key order (the Go map's member set is the observable). -/
def groupByDatasource (chunks : List ContentChunk) : List (String × List ContentChunk) :=
  (dedupKeep (chunks.map (fun ch => ch.datasourceID))).map fun ds =>
    (ds, chunks.filter (fun ch => ch.datasourceID = ds))

/-- The observable outcomes of the orchestrator's embedding dispatch. -/
inductive DispatchEvent where
  | enqueued (job : EmbeddingJob)
  | warnQueueFull (jobID : String) (datasourceId : String)
  | statusWrite (ids : List String) (status : String)
deriving DecidableEq, Repr

/-- One iteration of the orchestrator's dispatch loop: build the
per-datasource embedding job, try a non-blocking enqueue, and log a
structured warning when the queue refuses (the Go code performs no other
call on that path). -/
def dispatchStep (jobID userID chatbotID : String)
    (st : WorkerPool × List DispatchEvent) (g : String × List ContentChunk) :
    WorkerPool × List DispatchEvent :=
  match Enqueue st.1 (EmbeddingJob.mk (jobID ++ "-ds-" ++ g.1) userID chatbotID g.2 0) with
  | (true, wp2) =>
    (wp2, st.2 ++ [DispatchEvent.enqueued
      (EmbeddingJob.mk (jobID ++ "-ds-" ++ g.1) userID chatbotID g.2 0)])
  | (false, wp2) => (wp2, st.2 ++ [DispatchEvent.warnQueueFull (jobID ++ "-ds-" ++ g.1) g.1])

/-- Step 4 of `ProcessIngestionJob`: one embedding job per datasource,
enqueued non-blockingly. -/
def dispatchEmbeddingJobs (wp : WorkerPool) (jobID userID chatbotID : String)
    (allChunks : List ContentChunk) : WorkerPool × List DispatchEvent :=
  (groupByDatasource allChunks).foldl (dispatchStep jobID userID chatbotID) (wp, [])

/-- `types.DetermineSourceTypeFromContentType`. -/
def determineSourceTypeFromContentType (contentType : String) : String :=
  if contentType = "application/pdf" then "pdf"
  else if contentType = "text/plain" then "text"
  else if contentType = "text/csv" ∨ contentType = "application/csv" then "csv"
  else if contentType = "application/json" then "json"
  else "text"

/-- `determineCitation` (controller.go): url for websites, the literal
QnA for question answering, the filename for documents, the topic as
fallback. -/
def determineCitation (content : ProcessedContent) : String :=
  if content.sourceType = "website" then
    match content.metadata.lookup "url" with
    | some (MetaVal.str v) => if v = "" then content.topic else v
    | _ => content.topic
  else if content.sourceType = "qa" then "QnA"
  else if content.sourceType = "pdf" ∨ content.sourceType = "csv" ∨
          content.sourceType = "text" ∨ content.sourceType = "json" then
    match content.metadata.lookup "filename" with
    | some (MetaVal.str v) => if v = "" then content.topic else v
    | _ => content.topic
  else content.topic

/-- `convertAndAddCitationToChunks`. -/
def convertAndAddCitationToChunks (content : ProcessedContent) (datasourceID : String) :
    List ContentChunk :=
  let citation := determineCitation content
  content.chunks.map fun ch =>
    { datasourceID := datasourceID, content := ch.content, embedding := [],
      chunkIndex := ch.chunkIndex,
      metadata :=
        metaSet "datasourceId" (MetaVal.str datasourceID)
          (metaSet "topic" (MetaVal.str content.topic)
            (metaSet "sourceType" (MetaVal.str content.sourceType)
              (metaSet "citation" (MetaVal.str citation) ch.metadata))) }

/-- The outcome of the document branch of `processAllSources`
(controller.go 1074-1121): the downloader and decoder results are
external inputs; the branch produces the per-source `SourceResult`, the
chunks it contributes to the collector, and the database status writes
it submits — the Go branch submits none. -/
def documentSourceStep (doc : DocumentMetadata)
    (downloadResult : Except String (List Char))
    (decodeResult : Except String ProcessedContent) :
    SourceResult × List ContentChunk × List DispatchEvent :=
  match downloadResult with
  | Except.error e =>
    ({ datasourceID := doc.datasourceId,
       sourceType := determineSourceTypeFromContentType doc.contentType,
       source := doc.pathname, status := "failed", message := "",
       error := "Failed to download: " ++ e, chunkCount := 0 }, [], [])
  | Except.ok _ =>
    match decodeResult with
    | Except.error e =>
      ({ datasourceID := doc.datasourceId,
         sourceType := determineSourceTypeFromContentType doc.contentType,
         source := doc.pathname, status := "failed", message := "",
         error := e, chunkCount := 0 }, [], [])
    | Except.ok content =>
      ({ datasourceID := doc.datasourceId,
         sourceType := determineSourceTypeFromContentType doc.contentType,
         source := doc.pathname, status := "success",
         message := "Processed successfully", error := "",
         chunkCount := content.chunks.length },
       convertAndAddCitationToChunks content doc.datasourceId, [])

/-! ## CSV decoder (`text_processor.go`, CSVProcessor) -/

/-- The line-ending normalization of `csv.Reader.readLine`: every
`"\r\n"` becomes `"\n"`, and a lone `'\r'` right before end of input is
dropped (any `'\r'` elsewhere is an ordinary rune). -/
def csvNormalize : List Char → List Char
  | [] => []
  | '\r' :: '\n' :: rest => '\n' :: csvNormalize rest
  | ['\r'] => []
  | c :: rest => c :: csvNormalize rest

/-- The normalized stream cut after every `'\n'` (`readLine`): each line
keeps its terminating newline, a final unterminated line is kept, and an
empty tail is no line. -/
def splitLinesAux : List Char → List Char → List (List Char)
  | acc, [] => if acc = [] then [] else [acc.reverse]
  | acc, '\n' :: rest => (acc.reverse ++ ['\n']) :: splitLinesAux [] rest
  | acc, c :: rest => splitLinesAux (c :: acc) rest

def splitLines (t : List Char) : List (List Char) :=
  splitLinesAux [] t

/-- A line without its terminating newline (Go's `lengthNL` slicing). -/
def dropNL (l : List Char) : List Char :=
  if l.getLast? = some '\n' then l.dropLast else l

/-- Fuel measure for the reader loops: the runes of the remaining lines
plus one unit per line. -/
def csvTotalLen (lines : List (List Char)) : Nat :=
  (lines.map List.length).sum + lines.length

/-- The read errors `encoding/csv` can produce under the configuration
`CSVProcessor.Process` uses (`TrimLeadingSpace`, everything else default).
The `ParseError` line/column positions carry no decision and are elided
from the error value. -/
inductive CsvErr where
  | bareQuote
  | quote
  | fieldCount
deriving DecidableEq, Repr

/-- The wrapped message `CSVProcessor.Process` returns for a read error
(`fmt.Errorf("failed to read CSV: %w", err)`; positions elided). -/
def csvErrMsg : CsvErr → String
  | CsvErr.bareQuote => "failed to read CSV: bare \" in non-quoted field"
  | CsvErr.quote => "failed to read CSV: extraneous or missing \" in quoted-field"
  | CsvErr.fieldCount => "failed to read CSV: wrong number of fields"

/-- The quoted-field scanner of `readRecord`, entered after the opening
quote: `""` is an escaped quote, `",` ends the field, a closing quote
followed by the line's newline or by end of input ends the record, any
other rune after a closing quote is `ErrQuote`; the field may span lines
(their newlines are kept in the field), and end of input inside the
quotes is `ErrQuote`.  Returns the field, the rest of the current line,
the remaining lines, and whether the record ended. -/
def csvQuoted : Nat → List Char → List (List Char) → List Char →
    Except CsvErr (List Char × List Char × List (List Char) × Bool)
  | 0, _, _, _ => Except.error CsvErr.quote
  | fuel + 1, line, lines, buf =>
    match line, lines with
    | [], [] => Except.error CsvErr.quote
    | [], l :: ls => csvQuoted fuel l ls buf
    | '"' :: rest, _ =>
      match rest with
      | '"' :: rest2 => csvQuoted fuel rest2 lines (buf ++ ['"'])
      | ',' :: rest2 => Except.ok (buf, rest2, lines, false)
      | [] => Except.ok (buf, [], lines, true)
      | ['\n'] => Except.ok (buf, [], lines, true)
      | _ => Except.error CsvErr.quote
    | c :: rest, _ => csvQuoted fuel rest lines (buf ++ [c])

/-- The `parseField` loop of `readRecord` for one record: leading white
space of every field is dropped (`TrimLeadingSpace`), a field starting
with `'"'` is scanned by `csvQuoted`, and an unquoted field runs to the
next comma or to the end of the line and must not contain a quote
(`ErrBareQuote`).  Returns the record's fields and the remaining lines. -/
def csvFieldsAux : Nat → List Char → List (List Char) → List (List Char) →
    Except CsvErr (List (List Char) × List (List Char))
  | 0, _, _, _ => Except.error CsvErr.quote
  | fuel + 1, line, lines, acc =>
    match line.dropWhile goIsSpace with
    | '"' :: rest =>
      match csvQuoted (rest.length + csvTotalLen lines + 2) rest lines [] with
      | Except.error e => Except.error e
      | Except.ok (field, rest2, lines2, ended) =>
        if ended then Except.ok ((field :: acc).reverse, lines2)
        else csvFieldsAux fuel rest2 lines2 (field :: acc)
    | line1 =>
      match line1.findIdx? fun c => c == ',' with
      | some j =>
        if (line1.take j).contains '"' then Except.error CsvErr.bareQuote
        else csvFieldsAux fuel (line1.drop (j + 1)) lines (line1.take j :: acc)
      | none =>
        if (dropNL line1).contains '"' then Except.error CsvErr.bareQuote
        else Except.ok ((dropNL line1 :: acc).reverse, lines)

/-- The record loop of `ReadAll`: lines consisting solely of their
newline are skipped, the first record fixes the expected field count
(`FieldsPerRecord = 0`), a later record with a different count is
`ErrFieldCount`, and the first error aborts the whole read with no
records. -/
def csvRecords : Nat → Option Nat → List (List Char) →
    Except CsvErr (List (List String))
  | _, _, [] => Except.ok []
  | 0, _, _ :: _ => Except.error CsvErr.quote
  | fuel + 1, expected, line :: lines =>
    if line = ['\n'] then csvRecords fuel expected lines
    else
      match csvFieldsAux (line.length + csvTotalLen lines + 2) line lines [] with
      | Except.error e => Except.error e
      | Except.ok (fields, rest) =>
        match expected with
        | none =>
          match csvRecords fuel (some fields.length) rest with
          | Except.error e => Except.error e
          | Except.ok rs =>
            Except.ok ((fields.map fun f => String.mk f) :: rs)
        | some n =>
          if fields.length = n then
            match csvRecords fuel (some n) rest with
            | Except.error e => Except.error e
            | Except.ok rs =>
              Except.ok ((fields.map fun f => String.mk f) :: rs)
          else Except.error CsvErr.fieldCount

/-- `reader.ReadAll()` on the content, as `CSVProcessor.Process` calls
it.  The fuel bounds the record count by the line count and is never
exhausted. -/
def csvReadAll (content : List Char) : Except CsvErr (List (List String)) :=
  csvRecords ((splitLines (csvNormalize content)).length + 2) none
    (splitLines (csvNormalize content))

/-- The Go row loop of `CSVProcessor.Process`: iterate the row with its
column index `j`, and for every `j < len(headers)` append the
`header: value` line to the body and the pair to the row object. -/
def csvRowAux (headers : List String) : Nat → List String →
    String × List (String × String)
  | _, [] => ("", [])
  | j, v :: rest =>
    match headers.get? j with
    | some h =>
      (h ++ ": " ++ v ++ "\n" ++ (csvRowAux headers (j + 1) rest).1,
        (h, v) :: (csvRowAux headers (j + 1) rest).2)
    | none => csvRowAux headers (j + 1) rest

/-- The body the specification describes: one `header: value` line per
zipped column (values beyond the header count skipped), then trimmed. -/
def csvRowBody (headers row : List String) : String :=
  String.mk (trimSpace (String.toList
    (((List.zip headers row).map fun hv => hv.1 ++ ": " ++ hv.2 ++ "\n").foldr
      (fun a b => a ++ b) "")))

/-- `CSVProcessor.Process`: errors for a failed read, an empty file and
a header-only file, otherwise one chunk per data row carrying
filename, 1-based row number (header included) and the row object — and
no headers key — in its metadata, with the headers stored in the
document-level metadata. -/
def csvProcess (content : List Char) (filename chatbotID userID : String) :
    Except String ProcessedContent :=
  match csvReadAll content with
  | Except.error e => Except.error (csvErrMsg e)
  | Except.ok [] => Except.error "CSV file is empty"
  | Except.ok (headers :: dataRows) =>
    if dataRows = [] then Except.error "CSV file has no data rows"
    else
      let chunks := dataRows.enum.map fun ir =>
        { content := String.mk (trimSpace (String.toList (csvRowAux headers 0 ir.2).1)),
          chunkIndex := ir.1,
          metadata :=
            [("filename", MetaVal.str filename),
             ("row_number", MetaVal.num (ir.1 + 2)),
             ("row_data", MetaVal.rowData (csvRowAux headers 0 ir.2).2)] : PChunk }
      let fullContent := String.join (chunks.map fun ch => ch.content ++ "\n---\n")
      Except.ok
        { sourceType := "csv", content := fullContent, topic := filename,
          chunks := chunks,
          metadata :=
            [("filename", MetaVal.str filename),
             ("fileSize", MetaVal.num content.length),
             ("contentType", MetaVal.str "text/csv"),
             ("headers", MetaVal.headerList headers),
             ("rowCount", MetaVal.num dataRows.length),
             ("chatbotId", MetaVal.str chatbotID),
             ("userId", MetaVal.str userID)] }

/-! ## Helper lemmas: Go string helpers -/

theorem trimSpace_infix (l : List Char) : trimSpace l <:+: l := by
  unfold trimSpace
  have h1 : l.dropWhile goIsSpace <:+ l := List.dropWhile_suffix goIsSpace
  have h2 : ((l.dropWhile goIsSpace).reverse.dropWhile goIsSpace).reverse <+:
      (l.dropWhile goIsSpace).reverse.reverse :=
    List.reverse_prefix.mpr (List.dropWhile_suffix _)
  rw [List.reverse_reverse] at h2
  exact h2.isInfix.trans h1.isInfix

theorem trimSpace_length_le (l : List Char) : (trimSpace l).length ≤ l.length :=
  ( trimSpace_infix l).length_le

theorem findSub_some_isPrefixOf {sep t : List Char} {i : Nat}
    (h : findSub sep t = some i) : sep.isPrefixOf (t.drop i) = true := by
  induction t generalizing i with
  | nil =>
    unfold findSub at h
    split at h
    · rename_i hp
      cases h
      simpa using hp
    · cases h
  | cons c t ih =>
    unfold findSub at h
    split at h
    · rename_i hp
      cases h
      simpa using hp
    · rcases Option.map_eq_some'.mp h with ⟨j, hj, rfl⟩
      simpa using ih hj

theorem findSub_le {sep t : List Char} {i : Nat}
    (h : findSub sep t = some i) : i ≤ t.length := by
  induction t generalizing i with
  | nil =>
    unfold findSub at h
    split at h
    · cases h; simp
    · cases h
  | cons c t ih =>
    unfold findSub at h
    split at h
    · cases h; simp
    · rcases Option.map_eq_some'.mp h with ⟨j, hj, rfl⟩
      have := ih hj
      simp only [List.length_cons]
      omega

theorem findSub_bound {sep t : List Char} {i : Nat}
    (h : findSub sep t = some i) : i + sep.length ≤ t.length := by
  have h1 := findSub_some_isPrefixOf h
  rw [ List.isPrefixOf_iff_prefix] at h1
  have h2 := h1.length_le
  rw [List.length_drop] at h2
  have h3 := findSub_le h
  omega

theorem findSub_min {sep t : List Char} {i : Nat}
    (h : findSub sep t = some i) : ∀ j < i, sep.isPrefixOf (t.drop j) = false := by
  induction t generalizing i with
  | nil =>
    unfold findSub at h
    split at h
    · cases h; omega
    · cases h
  | cons c t ih =>
    unfold findSub at h
    split at h
    · cases h; omega
    · rcases Option.map_eq_some'.mp h with ⟨k, hk, rfl⟩
      intro j hj
      rename_i hnp
      simp only [Bool.not_eq_true] at hnp
      match j with
      | 0 =>
        simpa using hnp
      | j + 1 =>
        simpa using ih hk j (by omega)

theorem findSub_isSome_of_isPrefixOf {sep t : List Char} {j : Nat}
    (h : sep.isPrefixOf (t.drop j) = true) : (findSub sep t).isSome := by
  induction t generalizing j with
  | nil =>
    simp only [List.drop_nil] at h
    unfold findSub
    simp [h]
  | cons c t ih =>
    unfold findSub
    split
    · simp
    · match j with
      | 0 =>
        simp only [List.drop_zero] at h
        simp_all
      | j + 1 =>
        simp only [List.drop_succ_cons] at h
        have := ih (j := j) h
        rcases Option.isSome_iff_exists.mp this with ⟨k, hk⟩
        simp [hk]

theorem containsSub_iff_infix {t sep : List Char} :
    containsSub t sep = true ↔ sep <:+: t := by
  constructor
  · intro h
    rcases Option.isSome_iff_exists.mp h with ⟨i, hi⟩
    have hp := findSub_some_isPrefixOf hi
    rw [ List.isPrefixOf_iff_prefix] at hp
    exact hp.isInfix.trans (List.drop_suffix i t).isInfix
  · rintro ⟨pre, post, rfl⟩
    apply findSub_isSome_of_isPrefixOf (j := pre.length)
    rw [ List.isPrefixOf_iff_prefix]
    rw [List.append_assoc, List.drop_left]
    exact ⟨post, rfl⟩

theorem containsSub_false_of_infix {p t sep : List Char}
    (hinf : p <:+: t) (h : containsSub t sep = false) : containsSub p sep = false := by
  by_contra hc
  have : containsSub p sep = true := by
    cases hcc : containsSub p sep
    · exact absurd hcc hc
    · rfl
  have : sep <:+: t := ( containsSub_iff_infix.mp this).trans hinf
  rw [ containsSub_iff_infix.mpr this] at h
  cases h

theorem splitAux_infix {sep : List Char} :
    ∀ n t, ∀ p ∈ splitAux sep n t, p <:+: t := by
  intro n
  induction n with
  | zero =>
    intro t p hp
    simp only [splitAux, List.mem_singleton] at hp
    subst hp; exact List.infix_refl _
  | succ n ih =>
    intro t p hp
    simp only [splitAux] at hp
    split at hp
    · simp only [List.mem_singleton] at hp; subst hp; exact List.infix_refl _
    · rename_i i hi
      rcases List.mem_cons.mp hp with rfl | hmem
      · exact (List.take_prefix i t).isInfix
      · exact (ih _ p hmem).trans (List.drop_suffix _ t).isInfix

theorem isPrefixOf_of_take {sep l : List Char} {k : Nat}
    (h : sep.isPrefixOf (l.take k) = true) : sep.isPrefixOf l = true := by
  rw [ List.isPrefixOf_iff_prefix] at h ⊢
  exact h.trans (List.take_prefix k l)

theorem splitAux_not_contains {sep : List Char} (hsep : sep ≠ []) :
    ∀ n t, t.length ≤ n → ∀ p ∈ splitAux sep n t, containsSub p sep = false := by
  intro n
  induction n with
  | zero =>
    intro t ht p hp
    have ht0 : t = [] := List.length_eq_zero.mp (by omega)
    subst ht0
    simp only [splitAux, List.mem_singleton] at hp
    subst hp
    unfold containsSub findSub
    simp [ List.isPrefixOf_iff_prefix, hsep]
  | succ n ih =>
    intro t ht p hp
    simp only [splitAux] at hp
    split at hp
    · rename_i hnone
      simp only [List.mem_singleton] at hp; subst hp
      unfold containsSub
      rw [hnone]; rfl
    · rename_i i hi
      rcases List.mem_cons.mp hp with rfl | hmem
      · -- the first part, before the first occurrence, has no occurrence
        by_contra hc
        have hsome : (findSub sep (t.take i)).isSome := by
          cases hcc : containsSub (t.take i) sep
          · exact absurd hcc hc
          · exact hcc
        rcases Option.isSome_iff_exists.mp hsome with ⟨j, hj⟩
        have hjb : j + sep.length ≤ (t.take i).length := findSub_bound hj
        have hit : i + sep.length ≤ t.length := findSub_bound hi
        have hlen : (List.take i t).length = i := by
          rw [List.length_take]; omega
        have hjp := findSub_some_isPrefixOf hj
        rw [List.drop_take] at hjp
        have hjt : sep.isPrefixOf (t.drop j) = true := isPrefixOf_of_take hjp
        have hji : j < i := by
          have hslen : 1 ≤ sep.length := by
            cases sep with
            | nil => exact absurd rfl hsep
            | cons _ _ => simp
          omega
        have := findSub_min hi j hji
        rw [this] at hjt
        cases hjt
      · have hrec : (t.drop (i + sep.length)).length ≤ n := by
          rw [List.length_drop]
          have : 1 ≤ sep.length := by
            cases sep with
            | nil => exact absurd rfl hsep
            | cons _ _ => simp
          omega
        exact ih _ hrec p hmem

theorem splitAux_length_lt {sep : List Char} (hsep : sep ≠ [])
    {t : List Char} (hcon : containsSub t sep = true) :
    ∀ n, t.length ≤ n → ∀ p ∈ splitAux sep n t, p.length < t.length := by
  intro n ht p hp
  have hslen : 1 ≤ sep.length := by
    cases sep with
    | nil => exact absurd rfl hsep
    | cons _ _ => simp
  match n with
  | 0 =>
    have : t = [] := List.length_eq_zero.mp (by omega)
    subst this
    unfold containsSub findSub at hcon
    simp [ List.isPrefixOf_iff_prefix, hsep] at hcon
  | n + 1 =>
    simp only [splitAux] at hp
    split at hp
    · rename_i hnone
      unfold containsSub at hcon
      rw [hnone] at hcon
      cases hcon
    · rename_i i hi
      have hit : i + sep.length ≤ t.length := findSub_bound hi
      rcases List.mem_cons.mp hp with rfl | hmem
      · rw [List.length_take]; omega
      · have := ( splitAux_infix _ _ p hmem).length_le
        rw [List.length_drop] at this
        omega

theorem splitOnSub_infix {sep t : List Char} :
    ∀ p ∈ splitOnSub sep t, p <:+: t :=
  splitAux_infix t.length t

theorem splitOnSub_not_contains {sep : List Char} (hsep : sep ≠ []) (t : List Char) :
    ∀ p ∈ splitOnSub sep t, containsSub p sep = false :=
  splitAux_not_contains hsep t.length t le_rfl

theorem splitOnSub_length_lt {sep : List Char} (hsep : sep ≠ [])
    {t : List Char} (hcon : containsSub t sep = true) :
    ∀ p ∈ splitOnSub sep t, p.length < t.length :=
  splitAux_length_lt hsep hcon t.length le_rfl

/-! ## Helper lemmas: chunk-size bounds of the Chunker pieces -/

theorem splitBySizeAux_bound (c : Chunker) :
    ∀ n l, ∀ x ∈ splitBySizeAux c n l, x.length ≤ c.chunkSize := by
  intro n
  induction n with
  | zero =>
    intro l x hx
    cases l with
    | nil => simp [splitBySizeAux] at hx
    | cons a l => simp [splitBySizeAux] at hx
  | succ n ih =>
    intro l x hx
    cases l with
    | nil => simp [splitBySizeAux] at hx
    | cons a l =>
      simp only [splitBySizeAux, List.mem_append] at hx
      rcases hx with hx | hx
      · split at hx
        · simp only [List.mem_singleton] at hx
          subst hx
          calc (trimSpace ((a :: l).take c.chunkSize)).length
              ≤ ((a :: l).take c.chunkSize).length := trimSpace_length_le _
            _ ≤ c.chunkSize := by rw [List.length_take]; omega
        · simp at hx
      · exact ih _ x hx

theorem splitBySize_bound (c : Chunker) (l : List Char) :
    ∀ x ∈ splitBySize c l, x.length ≤ c.chunkSize :=
  splitBySizeAux_bound c l.length l

theorem overlapTail_length (c : Chunker) (prev : List Char) :
    (overlapTail c prev).length ≤ c.chunkOverlap := by
  unfold overlapTail
  have hd : (prev.drop (prev.length - c.chunkOverlap)).length ≤ c.chunkOverlap := by
    rw [List.length_drop]; omega
  split
  · split
    · calc ((prev.drop (prev.length - c.chunkOverlap)).drop _).length
          ≤ (prev.drop (prev.length - c.chunkOverlap)).length := by
            rw [List.length_drop]; omega
        _ ≤ c.chunkOverlap := hd
    · exact hd
  · exact hd

theorem overlapStep_length (c : Chunker) (prev cur : List Char) :
    (overlapStep c prev cur).length ≤ cur.length + c.chunkOverlap + 1 := by
  unfold overlapStep
  split
  · have := overlapTail_length c prev
    simp only [List.length_append, List.length_cons]
    omega
  · omega

theorem applyOverlapGo_bound (c : Chunker) (B : Nat) :
    ∀ l prev, (∀ x ∈ l, x.length ≤ B) →
      ∀ y ∈ applyOverlapGo c prev l, y.length ≤ B + c.chunkOverlap + 1 := by
  intro l
  induction l with
  | nil => intro prev _ y hy; simp [applyOverlapGo] at hy
  | cons cur rest ih =>
    intro prev hl y hy
    simp only [applyOverlapGo, List.mem_cons] at hy
    rcases hy with rfl | hy
    · have h1 := overlapStep_length c prev cur
      have h2 : cur.length ≤ B := hl cur (by simp)
      omega
    · exact ih cur (fun x hx => hl x (by simp [hx])) y hy

theorem applyOverlap_bound (c : Chunker) (B : Nat) (chunks : List (List Char))
    (h : ∀ x ∈ chunks, x.length ≤ B) :
    ∀ y ∈ applyOverlap c chunks, y.length ≤ B + c.chunkOverlap + 1 := by
  cases chunks with
  | nil => intro y hy; simp [applyOverlap] at hy
  | cons first rest =>
    cases rest with
    | nil =>
      intro y hy
      simp only [applyOverlap, List.mem_singleton] at hy
      subst hy
      have := h y (by simp)
      omega
    | cons second rest2 =>
      intro y hy
      simp only [applyOverlap, List.mem_cons] at hy
      rcases hy with rfl | hy
      · have := h y (by simp)
        omega
      · exact applyOverlapGo_bound c B (second :: rest2) first
          (fun x hx => h x (by simp only [List.mem_cons] at hx ⊢; tauto)) y hy

/-! ## Helper lemmas: separator search and budget -/

theorem firstSep_none {seps : List (List Char)} {t : List Char}
    (h : firstSep seps t = none) : ∀ s ∈ seps, containsSub t s = false := by
  induction seps with
  | nil => intro s hs; simp at hs
  | cons a rest ih =>
    intro s hs
    unfold firstSep at h
    split at h
    · cases h
    · rename_i hna
      simp only [Bool.not_eq_true] at hna
      rcases List.mem_cons.mp hs with rfl | hs
      · exact hna
      · exact ih h s hs

theorem firstSep_some {seps : List (List Char)} {t : List Char}
    {best : List Char} {rest : List (List Char)}
    (h : firstSep seps t = some (best, rest)) :
    containsSub t best = true ∧ sepBudget seps t = rest.length + 1 ∧
      ∃ pre, seps = pre ++ best :: rest ∧ ∀ s ∈ pre, containsSub t s = false := by
  induction seps with
  | nil => simp [firstSep] at h
  | cons a tail ih =>
    unfold firstSep at h
    split at h
    · rename_i ha
      cases h
      exact ⟨ha, by simp [sepBudget, ha], ⟨[], by simp, by simp⟩⟩
    · rename_i hna
      simp only [Bool.not_eq_true] at hna
      obtain ⟨h1, h2, pre, hpre, hprenone⟩ := ih h
      refine ⟨h1, ?_, a :: pre, by simp [hpre], ?_⟩
      · simp [sepBudget, hna, h2]
      · intro s hs
        rcases List.mem_cons.mp hs with rfl | hs
        · exact hna
        · exact hprenone s hs

theorem sepBudget_le_length (seps : List (List Char)) (t : List Char) :
    sepBudget seps t ≤ seps.length := by
  induction seps with
  | nil => simp [sepBudget]
  | cons a rest ih =>
    unfold sepBudget
    split
    · simp
    · simp only [List.length_cons]; omega

theorem sepBudget_eq_zero {seps : List (List Char)} {t : List Char}
    (h : ∀ s ∈ seps, containsSub t s = false) : sepBudget seps t = 0 := by
  induction seps with
  | nil => rfl
  | cons a rest ih =>
    unfold sepBudget
    rw [h a (by simp)]
    exact ih (fun s hs => h s (by simp [hs]))

/-! ## Helper lemmas: the greedy reassembly loop -/

theorem flushChunks_bound {B : Nat} {c : Chunker} (hB : c.chunkSize ≤ B)
    (st : List (List Char) × List Char)
    (h1 : ∀ x ∈ st.1, x.length ≤ B) (h2 : st.2.length ≤ c.chunkSize) :
    ∀ x ∈ flushChunks st, x.length ≤ B := by
  intro x hx
  unfold flushChunks at hx
  split at hx
  · rcases List.mem_append.mp hx with hx | hx
    · exact h1 x hx
    · simp only [List.mem_singleton] at hx
      subst hx
      calc (trimSpace st.2).length ≤ st.2.length := trimSpace_length_le _
        _ ≤ c.chunkSize := h2
        _ ≤ B := hB
  · exact h1 x hx

theorem greedyStep_invariant (c : Chunker) (best : List Char)
    (g : List Char → List (List Char)) (B : Nat) (hB : c.chunkSize ≤ B)
    (part0 : List Char) (st : List (List Char) × List Char)
    (hg : ∀ ch ∈ g (trimSpace part0), ch.length ≤ B)
    (h1 : ∀ x ∈ st.1, x.length ≤ B) (h2 : st.2.length ≤ c.chunkSize) :
    (∀ x ∈ (greedyStep c best g st part0).1, x.length ≤ B) ∧
      (greedyStep c best g st part0).2.length ≤ c.chunkSize := by
  have hflush := flushChunks_bound hB st h1 h2
  have hmem : ∀ x ∈ flushChunks st ++ g (trimSpace part0), x.length ≤ B := by
    intro x hx
    rcases List.mem_append.mp hx with hx | hx
    · exact hflush x hx
    · exact hg x hx
  unfold greedyStep
  split_ifs with hp hq hle hbig hle2 hbig2
  · exact ⟨h1, h2⟩
  · exact ⟨h1, by simpa using hle⟩
  · exact ⟨hmem, by simp⟩
  · exact ⟨hflush, by simpa using Nat.le_of_not_lt hbig⟩
  · exact ⟨h1, by simpa using hle2⟩
  · exact ⟨hmem, by simp⟩
  · exact ⟨hflush, by simpa using Nat.le_of_not_lt hbig2⟩

theorem greedy_foldl_invariant (c : Chunker) (best : List Char)
    (g : List Char → List (List Char)) (B : Nat) (hB : c.chunkSize ≤ B) :
    ∀ parts : List (List Char),
      (∀ p ∈ parts, ∀ ch ∈ g (trimSpace p), ch.length ≤ B) →
      ∀ st : List (List Char) × List Char,
        (∀ x ∈ st.1, x.length ≤ B) → st.2.length ≤ c.chunkSize →
        (∀ x ∈ (parts.foldl (greedyStep c best g) st).1, x.length ≤ B) ∧
          (parts.foldl (greedyStep c best g) st).2.length ≤ c.chunkSize := by
  intro parts
  induction parts with
  | nil => intro _ st h1 h2; exact ⟨h1, h2⟩
  | cons part0 rest ih =>
    intro hg st h1 h2
    simp only [List.foldl_cons]
    have hstep := greedyStep_invariant c best g B hB part0 st
      (hg part0 (by simp)) h1 h2
    exact ih (fun p hp => hg p (by simp [hp])) _ hstep.1 hstep.2

/-! ## Helper lemmas: the recursive split bound -/

theorem recursiveSplitAux_bound (c : Chunker) :
    ∀ fuel seps text, (∀ s ∈ seps, s ≠ []) →
      ∀ ch ∈ recursiveSplitAux c fuel seps text,
        ch.length ≤ c.chunkSize + sepBudget seps text * (c.chunkOverlap + 1) := by
  intro fuel
  induction fuel with
  | zero => intro seps text _ ch hch; simp [recursiveSplitAux] at hch
  | succ fuel ih =>
    intro seps text hseps ch hch
    simp only [recursiveSplitAux] at hch
    split at hch
    · -- short text: the single trimmed chunk
      split at hch
      · simp only [List.mem_singleton] at hch
        subst hch
        have := trimSpace_length_le text
        rename_i hshort _
        omega
      · simp at hch
    · rename_i hlong
      split at hch
      · -- no separator found: fixed-size windows
        have := splitBySize_bound c text ch hch
        omega
      · rename_i best rest hfs
        obtain ⟨hcon, hbudget, pre, hpre, hprenone⟩ := firstSep_some hfs
        have hbestne : best ≠ [] := hseps best (by rw [hpre]; simp)
        set ns := if rest = [] then seps else rest with hns
        have hnextseps : ∀ s ∈ ns, s ≠ [] := by
          intro s hs
          rw [hns] at hs
          split at hs
          · exact hseps s hs
          · exact hseps s (by rw [hpre]; simp [hs])
        have hg : ∀ p0 ∈ splitOnSub best text,
            ∀ x ∈ recursiveSplitAux c fuel ns (trimSpace p0),
              x.length ≤ c.chunkSize + rest.length * (c.chunkOverlap + 1) := by
          intro p0 hp0 x hx
          have hxb := ih ns (trimSpace p0) hnextseps x hx
          have hble : sepBudget ns (trimSpace p0) ≤ rest.length := by
            rw [hns]
            split
            · rename_i hre
              -- the last separator level: the segment contains no separator at all
              have hz : sepBudget seps (trimSpace p0) = 0 := by
                apply sepBudget_eq_zero
                intro s hs
                rw [hpre] at hs
                rcases List.mem_append.mp hs with hs | hs
                · exact containsSub_false_of_infix
                    (( trimSpace_infix p0).trans ( splitOnSub_infix p0 hp0))
                    (hprenone s hs)
                · rcases List.mem_cons.mp hs with rfl | hs
                  · exact containsSub_false_of_infix ( trimSpace_infix p0)
                      (splitOnSub_not_contains hbestne text p0 hp0)
                  · rw [hre] at hs
                    simp at hs
              omega
            · exact sepBudget_le_length _ _
          have := Nat.mul_le_mul_right (c.chunkOverlap + 1) hble
          omega
        have hfold := greedy_foldl_invariant c best
          (fun part => recursiveSplitAux c fuel ns part)
          (c.chunkSize + rest.length * (c.chunkOverlap + 1)) (by omega)
          (splitOnSub best text) hg ([], []) (by simp) (by simp)
        have hall := flushChunks_bound (B := c.chunkSize + rest.length * (c.chunkOverlap + 1))
          (by omega) _ hfold.1 hfold.2
        rw [hbudget]
        have hexp : (rest.length + 1) * (c.chunkOverlap + 1) =
            rest.length * (c.chunkOverlap + 1) + (c.chunkOverlap + 1) := by ring
        split at hch
        · have := applyOverlap_bound c _ _ hall ch hch
          omega
        · have := hall ch hch
          omega

/-- The final chunker bound: every chunk `ChunkText` returns stays within
`chunkSize` plus one overlap contribution per separator level at or after
the first one present. -/
theorem ChunkText_bound (c : Chunker) (hseps : ∀ s ∈ c.separators, s ≠ [])
    (text : List Char) :
    ∀ ch ∈ ChunkText c text,
      ch.length ≤ c.chunkSize + c.separators.length * (c.chunkOverlap + 1) := by
  intro ch hch
  simp only [ChunkText] at hch
  split at hch
  · simp at hch
  · split at hch
    · simp only [List.mem_singleton] at hch
      subst hch
      rename_i hshort
      omega
    · have h1 := recursiveSplitAux_bound c (trimSpace text).length c.separators
        (trimSpace text) hseps ch hch
      have h2 := sepBudget_le_length c.separators (trimSpace text)
      have := Nat.mul_le_mul_right (c.chunkOverlap + 1) h2
      omega

/-! ## Claim C10 -/

/-- C10: for every pair of integer arguments, `NewChunker` yields
parameters with `1 ≤ chunkSize` and `chunkOverlap < chunkSize`: a
non-positive size is replaced by 1000, a negative overlap by 0, and an
overlap reaching the (possibly replaced) size by `chunkSize / 4`, so the
fixed-size fallback window always advances by a positive step. -/
theorem newChunker_param_invariant (a b : Int) :
    1 ≤ (NewChunker a b).chunkSize ∧
    (NewChunker a b).chunkOverlap < (NewChunker a b).chunkSize ∧
    1 ≤ (NewChunker a b).chunkSize - (NewChunker a b).chunkOverlap ∧
    (a ≤ 0 → (NewChunker a b).chunkSize = 1000) ∧
    (0 < a → (NewChunker a b).chunkSize = a.toNat) ∧
    (b < 0 → (NewChunker a b).chunkOverlap = 0) ∧
    (0 ≤ b → b < (if a ≤ 0 then (1000 : Int) else a) →
      (NewChunker a b).chunkOverlap = b.toNat) ∧
    (0 ≤ b → (if a ≤ 0 then (1000 : Int) else a) ≤ b →
      (NewChunker a b).chunkOverlap = ((if a ≤ 0 then (1000 : Int) else a) / 4).toNat) := by
  simp only [NewChunker]
  split_ifs with h1 h2 h3 <;>
    refine ⟨?_, ?_, ?_, ?_, ?_, ?_, ?_, ?_⟩ <;> intros <;> first | rfl | omega

/-- Witness for C10 at the concrete inputs (-5, 20) and (7, 9). -/
theorem newChunker_param_invariant_witness :
    (NewChunker (-5) 20).chunkSize = 1000 ∧ (NewChunker 7 9).chunkOverlap = 1 := by
  constructor
  · exact (newChunker_param_invariant (-5) 20).2.2.2.1 (by omega)
  · have h := (newChunker_param_invariant 7 9).2.2.2.2.2.2.2 (by omega) (by norm_num)
    simpa using h

/-! ## Claim C7 -/

/-- C7 (counterexample): with `NewChunker 5 4`, the input
`". ca .eb ebb"` produces the chunk `" .eb .eb ebb"` of 12 runes, which
exceeds `chunkSize + chunkOverlap + longestSeparator = 5 + 4 + 2`: the
overlap of one recursion level is prepended on top of the overlap already
added by the level below. -/
theorem chunkText_bound_counterexample :
    ∃ ch ∈ ChunkText (NewChunker 5 4) ".\x20ca\x20.eb\x20ebb".toList,
      (NewChunker 5 4).chunkSize + (NewChunker 5 4).chunkOverlap +
        ((NewChunker 5 4).separators.map List.length).foldr max 0 < ch.length := by
  refine ⟨"\x20.eb\x20.eb\x20ebb".toList, by decide, by decide⟩

/-- C7 (amended): every chunk `ChunkText` returns stays within
`chunkSize + 8 * (chunkOverlap + 1)` runes, 8 being the number of
separator levels: each recursion level can prepend one overlap of at most
`chunkOverlap` runes plus one joining space. -/
theorem chunkText_overlap_bound (a b : Int) (text : List Char) :
    ∀ ch ∈ ChunkText (NewChunker a b) text,
      ch.length ≤ (NewChunker a b).chunkSize + 8 * ((NewChunker a b).chunkOverlap + 1) := by
  intro ch hch
  have hsep : ∀ s ∈ (NewChunker a b).separators, s ≠ [] := by
    intro s hs
    have : (NewChunker a b).separators = goSeparators := rfl
    rw [this] at hs
    fin_cases hs <;> simp
  have h := ChunkText_bound (NewChunker a b) hsep text ch hch
  have hlen : (NewChunker a b).separators.length = 8 := rfl
  rw [hlen] at h
  omega

/-- Witness for C7's amended bound at a concrete chunk of a concrete
input. -/
theorem chunkText_overlap_bound_witness :
    "\x20.eb\x20.eb\x20ebb".toList ∈
        ChunkText (NewChunker 5 4) ".\x20ca\x20.eb\x20ebb".toList ∧
      ("\x20.eb\x20.eb\x20ebb".toList).length ≤
        (NewChunker 5 4).chunkSize + 8 * ((NewChunker 5 4).chunkOverlap + 1) :=
  ⟨by decide, chunkText_overlap_bound 5 4 ".\x20ca\x20.eb\x20ebb".toList _ (by decide)⟩

/-! ## Claim C6 -/

/-- C6: `Enqueue` and `EnqueueIngestion` are non-blocking try-sends:
each returns `false` exactly when the quit channel is closed or the
target channel is full, a rejected call leaves the pool unchanged, and
after `Stop` closes the quit channel every enqueue returns `false` and
leaves the pool unchanged. -/
theorem enqueue_nonblocking_contract (wp : WorkerPool) (ej : EmbeddingJob)
    (ij : IngestionJob) :
    ((Enqueue wp ej).1 = false ↔
      wp.quitClosed = true ∨ wp.capacity ≤ wp.embeddingJobs.length) ∧
    ((Enqueue wp ej).1 = false → (Enqueue wp ej).2 = wp) ∧
    ((EnqueueIngestion wp ij).1 = false ↔
      wp.quitClosed = true ∨ wp.capacity ≤ wp.ingestionJobs.length) ∧
    ((EnqueueIngestion wp ij).1 = false → (EnqueueIngestion wp ij).2 = wp) ∧
    (Enqueue (StopSignal wp) ej).1 = false ∧
    (Enqueue (StopSignal wp) ej).2 = StopSignal wp ∧
    (EnqueueIngestion (StopSignal wp) ij).1 = false ∧
    (EnqueueIngestion (StopSignal wp) ij).2 = StopSignal wp := by
  unfold Enqueue EnqueueIngestion StopSignal
  refine ⟨?_, ?_, ?_, ?_, ?_, ?_, ?_, ?_⟩ <;> split_ifs <;> simp_all

/-- Witness for C6: a full pool with capacity 0 rejects and is left
unchanged, and a stopped pool rejects. -/
theorem enqueue_nonblocking_contract_witness :
    (Enqueue ⟨false, [], [], 0⟩ ⟨"j", "u", "c", [], 0⟩).1 = false ∧
    (Enqueue ⟨false, [], [], 0⟩ ⟨"j", "u", "c", [], 0⟩).2 = ⟨false, [], [], 0⟩ ∧
    (EnqueueIngestion (StopSignal ⟨false, [], [], 5⟩)
      ⟨"j", ⟨"u", "c", [], [], [], [], none⟩⟩).1 = false := by
  have h1 := enqueue_nonblocking_contract ⟨false, [], [], 0⟩ ⟨"j", "u", "c", [], 0⟩
    ⟨"j", ⟨"u", "c", [], [], [], [], none⟩⟩
  have h2 := enqueue_nonblocking_contract ⟨false, [], [], 5⟩ ⟨"j", "u", "c", [], 0⟩
    ⟨"j", ⟨"u", "c", [], [], [], [], none⟩⟩
  have hrej : (Enqueue ⟨false, [], [], 0⟩ ⟨"j", "u", "c", [], 0⟩).1 = false :=
    h1.1.mpr (Or.inr (by simp))
  exact ⟨hrej, h1.2.1 hrej, h2.2.2.2.2.2.2.1⟩

/-! ## Claim C9 -/

/-- C9: admission returns only after the ingestion enqueue succeeds,
answering with the generated job id, status processing and
`totalSources` equal to the sum of the four source array lengths; when
the queue refuses, it returns an error and the pool is unchanged (no job
enqueued).  The job id itself is produced by the external UUIDv4
generator and passed through verbatim. -/
theorem admission_contract (wp : WorkerPool) (jobID : String) (req : ProcessRequest) :
    (wp.quitClosed = false → wp.ingestionJobs.length < wp.capacity →
      (serviceProcess wp jobID req).2 =
        Except.ok { jobID := jobID, status := "processing",
                    message := "Job queued for processing",
                    totalSources := req.websiteUrls.length + req.qandaData.length +
                      req.documents.length + req.textContent.length } ∧
      (serviceProcess wp jobID req).1.ingestionJobs =
        wp.ingestionJobs ++ [{ jobID := jobID, request := req }]) ∧
    ((wp.quitClosed = true ∨ wp.capacity ≤ wp.ingestionJobs.length) →
      (serviceProcess wp jobID req).2 =
        Except.error "ingestion queue is full, try again later" ∧
      (serviceProcess wp jobID req).1 = wp) := by
  constructor
  · intro hq hlen
    have hnle : ¬ wp.capacity ≤ wp.ingestionJobs.length := by omega
    simp [serviceProcess, EnqueueIngestion, hq, hnle, calculateTotalSources]
  · intro h
    rcases h with hq | hlen
    · simp [serviceProcess, EnqueueIngestion, hq]
    · cases hq : wp.quitClosed
      · simp [serviceProcess, EnqueueIngestion, hq, hlen]
      · simp [serviceProcess, EnqueueIngestion, hq]

/-- Witness for C9: one accepted admission and one rejected admission at
concrete pools. -/
theorem admission_contract_witness :
    (serviceProcess ⟨false, [], [], 2⟩ "id-1"
        ⟨"u", "c", [], [⟨"1", "q", "a", ""⟩], [], [], none⟩).2 =
      Except.ok { jobID := "id-1", status := "processing",
                  message := "Job queued for processing", totalSources := 1 } ∧
    (serviceProcess ⟨false, [], [], 0⟩ "id-2"
        ⟨"u", "c", [], [], [], [], none⟩).2 =
      Except.error "ingestion queue is full, try again later" := by
  constructor
  · exact ((admission_contract ⟨false, [], [], 2⟩ "id-1"
      ⟨"u", "c", [], [⟨"1", "q", "a", ""⟩], [], [], none⟩).1 rfl (by simp)).1
  · exact ((admission_contract ⟨false, [], [], 0⟩ "id-2"
      ⟨"u", "c", [], [], [], [], none⟩).2 (Or.inr (by simp))).1

/-! ## Claim C2 -/

theorem dispatch_foldl_spec (jobID userID chatbotID : String) :
    ∀ (groups : List (String × List ContentChunk)) (wp : WorkerPool)
      (acc : List DispatchEvent),
      ((groups.foldl (dispatchStep jobID userID chatbotID) (wp, acc)).2.length =
        acc.length + groups.length) ∧
      (∀ e ∈ (groups.foldl (dispatchStep jobID userID chatbotID) (wp, acc)).2,
        e ∈ acc ∨ (∃ j, e = DispatchEvent.enqueued j) ∨
          (∃ jid ds, e = DispatchEvent.warnQueueFull jid ds)) := by
  intro groups
  induction groups with
  | nil => intro wp acc; exact ⟨by simp, fun e he => Or.inl he⟩
  | cons g rest ih =>
    intro wp acc
    simp only [List.foldl_cons]
    cases hE : Enqueue wp (EmbeddingJob.mk (jobID ++ "-ds-" ++ g.1)
        userID chatbotID g.2 0) with
    | mk ok wp2 =>
      cases ok with
      | true =>
        have hstep : dispatchStep jobID userID chatbotID (wp, acc) g =
            (wp2, acc ++ [DispatchEvent.enqueued
              (EmbeddingJob.mk (jobID ++ "-ds-" ++ g.1) userID chatbotID g.2 0)]) := by
          unfold dispatchStep
          rw [hE]
        rw [hstep]
        obtain ⟨h1, h2⟩ := ih wp2 (acc ++ [DispatchEvent.enqueued
          (EmbeddingJob.mk (jobID ++ "-ds-" ++ g.1) userID chatbotID g.2 0)])
        refine ⟨by rw [h1]; simp; omega, ?_⟩
        intro e he
        rcases h2 e he with hmem | h | h
        · rcases List.mem_append.mp hmem with hmem | hmem
          · exact Or.inl hmem
          · simp only [List.mem_singleton] at hmem
            exact Or.inr (Or.inl ⟨_, hmem⟩)
        · exact Or.inr (Or.inl h)
        · exact Or.inr (Or.inr h)
      | false =>
        have hstep : dispatchStep jobID userID chatbotID (wp, acc) g =
            (wp2, acc ++ [DispatchEvent.warnQueueFull (jobID ++ "-ds-" ++ g.1) g.1]) := by
          unfold dispatchStep
          rw [hE]
        rw [hstep]
        obtain ⟨h1, h2⟩ := ih wp2 (acc ++ [DispatchEvent.warnQueueFull
          (jobID ++ "-ds-" ++ g.1) g.1])
        refine ⟨by rw [h1]; simp; omega, ?_⟩
        intro e he
        rcases h2 e he with hmem | h | h
        · rcases List.mem_append.mp hmem with hmem | hmem
          · exact Or.inl hmem
          · simp only [List.mem_singleton] at hmem
            exact Or.inr (Or.inr ⟨_, _, hmem⟩)
        · exact Or.inr (Or.inl h)
        · exact Or.inr (Or.inr h)

/-- C2 (counterexample): with a full embedding queue, the orchestrator's
dispatch of one datasource emits only the structured warning and drops
the job; no `FAILED` status write is submitted and the pool is left
unchanged — the claim's "the datasources ... are marked FAILED" fails
here. -/
theorem dispatch_queueFull_counterexample :
    (dispatchEmbeddingJobs ⟨false, [], [], 0⟩ "job1" "u1" "c1"
        [⟨"ds1", 0, "hello", [], []⟩]).2 =
      [DispatchEvent.warnQueueFull "job1-ds-ds1" "ds1"] ∧
    (∀ ids status, DispatchEvent.statusWrite ids status ∉
      (dispatchEmbeddingJobs ⟨false, [], [], 0⟩ "job1" "u1" "c1"
        [⟨"ds1", 0, "hello", [], []⟩]).2) ∧
    (dispatchEmbeddingJobs ⟨false, [], [], 0⟩ "job1" "u1" "c1"
      [⟨"ds1", 0, "hello", [], []⟩]).1 = ⟨false, [], [], 0⟩ := by
  refine ⟨by decide, ?_, by decide⟩
  intro ids status hmem
  have hev : (dispatchEmbeddingJobs ⟨false, [], [], 0⟩ "job1" "u1" "c1"
      [⟨"ds1", 0, "hello", [], []⟩]).2 =
      [DispatchEvent.warnQueueFull "job1-ds-ds1" "ds1"] := by decide
  rw [hev] at hmem
  simp at hmem

/-- C2 (amended): a rejected per-datasource enqueue emits a structured
warning and drops the job without blocking, and the enqueue is attempted
exactly once per datasource group (no retry); no status write of any
kind — in particular no `FAILED` write — is submitted by the dispatch
loop. -/
theorem dispatch_queueFull_amended (wp : WorkerPool)
    (jobID userID chatbotID : String) (chunks : List ContentChunk) :
    ((dispatchEmbeddingJobs wp jobID userID chatbotID chunks).2.length =
      (groupByDatasource chunks).length) ∧
    (∀ ids status, DispatchEvent.statusWrite ids status ∉
      (dispatchEmbeddingJobs wp jobID userID chatbotID chunks).2) := by
  obtain ⟨h1, h2⟩ := dispatch_foldl_spec jobID userID chatbotID
    (groupByDatasource chunks) wp []
  refine ⟨by simpa using h1, ?_⟩
  intro ids status hmem
  rcases h2 _ hmem with h | ⟨j, h⟩ | ⟨jid, ds, h⟩
  · simp at h
  · cases h
  · cases h

/-- Witness for C2's amended statement at a concrete full pool. -/
theorem dispatch_queueFull_amended_witness :
    (dispatchEmbeddingJobs ⟨false, [], [], 0⟩ "job1" "u1" "c1"
        [⟨"ds1", 0, "hello", [], []⟩]).2.length = 1 ∧
    DispatchEvent.statusWrite ["ds1"] "FAILED" ∉
      (dispatchEmbeddingJobs ⟨false, [], [], 0⟩ "job1" "u1" "c1"
        [⟨"ds1", 0, "hello", [], []⟩]).2 := by
  have h := dispatch_queueFull_amended ⟨false, [], [], 0⟩ "job1" "u1" "c1"
    [⟨"ds1", 0, "hello", [], []⟩]
  exact ⟨by simpa using h.1, h.2 ["ds1"] "FAILED"⟩

/-! ## Claim C1 -/

/-- C1 (behaviour at the failing input): for a document whose download
returns an error, the orchestrator's document branch records the
per-source `SourceResult` with status `failed` and the download error,
contributes no chunks — so no embedding job and no Embeddings rows for
that datasource can follow — but submits NO `DataSource = FAILED` status
write: the call the specification (and the comment block in `worker.go`)
describes is absent from the code. -/
theorem documentDownloadFailure_behaviour :
    (documentSourceStep
        ⟨"ds7", "https://example.com/a.pdf", "https://storage.example.com/a.pdf",
          "a.pdf", "application/pdf", "attachment"⟩
        (Except.error "received status code 404")
        (Except.error "not reached")).1 =
      { datasourceID := "ds7", sourceType := "pdf", source := "a.pdf",
        status := "failed", message := "",
        error := "Failed to download: received status code 404", chunkCount := 0 } ∧
    (documentSourceStep
        ⟨"ds7", "https://example.com/a.pdf", "https://storage.example.com/a.pdf",
          "a.pdf", "application/pdf", "attachment"⟩
        (Except.error "received status code 404")
        (Except.error "not reached")).2.1 = [] ∧
    (documentSourceStep
        ⟨"ds7", "https://example.com/a.pdf", "https://storage.example.com/a.pdf",
          "a.pdf", "application/pdf", "attachment"⟩
        (Except.error "received status code 404")
        (Except.error "not reached")).2.2 = [] ∧
    (dispatchEmbeddingJobs ⟨false, [], [], 10⟩ "job1" "u1" "c1"
      (documentSourceStep
        ⟨"ds7", "https://example.com/a.pdf", "https://storage.example.com/a.pdf",
          "a.pdf", "application/pdf", "attachment"⟩
        (Except.error "received status code 404")
        (Except.error "not reached")).2.1).2 = [] := by
  refine ⟨by decide, by decide, by decide, by decide⟩

/-! ## Helper lemmas: the embedding worker's action lists -/

theorem requeue_no_completed (env : WorkerEnv) (wp : WorkerPool)
    (j : EmbeddingJob) (fc : List ContentChunk) :
    ∀ ids, WorkerAction.statusWrite ids "COMPLETED" ∉
      (requeueFailedChunks env wp j fc).2 := by
  intro ids h
  unfold requeueFailedChunks at h
  split at h
  · split at h <;> simp_all
  · cases hE : Enqueue wp (retryJobOf j fc) with
    | mk ok wp2 =>
      rw [hE] at h
      cases ok
      · simp only [List.mem_cons] at h
        rcases h with h | h
        · cases h
        · split at h <;> simp_all
      · simp at h

theorem persist_no_retry (env : WorkerEnv) (job : EmbeddingJob) (mark : Bool) :
    ∀ r acc, WorkerAction.enqueueRetry r acc ∉
      (persistEmbeddingsWithStatus env job mark).1 := by
  intro r acc h
  unfold persistEmbeddingsWithStatus at h
  split_ifs at h <;> simp_all

theorem persist_completed_mem (env : WorkerEnv) (job : EmbeddingJob) (mark : Bool)
    (ids : List String)
    (h : WorkerAction.statusWrite ids "COMPLETED" ∈
      (persistEmbeddingsWithStatus env job mark).1) :
    mark = true ∧ env.insertOk = true ∧ ids = persistDsIds job := by
  unfold persistEmbeddingsWithStatus at h
  split_ifs at h with h1 h2 h3
  · simp at h
  · simp at h
  · simp only [List.mem_cons, List.mem_singleton] at h
    rcases h with h | h | h
    · cases h
    · injection h with hids hst
      refine ⟨h3.1, ?_, hids⟩
      cases hio : env.insertOk
      · exact absurd hio h2
      · rfl
    · cases h
  · simp at h

theorem requeue_retry_mem (env : WorkerEnv) (wp : WorkerPool) (j : EmbeddingJob)
    (fc : List ContentChunk) (r : EmbeddingJob) (acc : Bool)
    (h : WorkerAction.enqueueRetry r acc ∈ (requeueFailedChunks env wp j fc).2) :
    r = retryJobOf j fc ∧ j.retryCount < maxEmbeddingRetries := by
  unfold requeueFailedChunks at h
  split at h
  · split at h <;> simp_all
  · rename_i hlt
    cases hE : Enqueue wp (retryJobOf j fc) with
    | mk ok wp2 =>
      rw [hE] at h
      cases ok
      · simp only [List.mem_cons] at h
        rcases h with h | h
        · injection h with h1 h2
          exact ⟨h1, by omega⟩
        · split at h <;> simp_all
      · simp only [List.mem_singleton] at h
        injection h with h1 h2
        exact ⟨h1, by omega⟩

theorem requeue_retry_exists (env : WorkerEnv) (wp : WorkerPool) (j : EmbeddingJob)
    (fc : List ContentChunk) (hlt : j.retryCount < maxEmbeddingRetries) :
    ∃ acc, WorkerAction.enqueueRetry (retryJobOf j fc) acc ∈
      (requeueFailedChunks env wp j fc).2 := by
  unfold requeueFailedChunks
  rw [if_neg (by omega)]
  cases hE : Enqueue wp (retryJobOf j fc) with
  | mk ok wp2 =>
    cases ok
    · exact ⟨false, by simp⟩
    · exact ⟨true, by simp⟩

theorem requeue_exhausted (env : WorkerEnv) (wp : WorkerPool) (j : EmbeddingJob)
    (fc : List ContentChunk) (hge : maxEmbeddingRetries ≤ j.retryCount)
    (hdb : env.hasDb = true) (hids : distinctDatasourceIDs fc ≠ []) :
    (requeueFailedChunks env wp j fc).2 =
      [WorkerAction.statusWrite (distinctDatasourceIDs fc) "FAILED"] ∧
    (∀ r acc, WorkerAction.enqueueRetry r acc ∉ (requeueFailedChunks env wp j fc).2) := by
  unfold requeueFailedChunks
  rw [if_pos hge, if_pos ⟨hdb, hids⟩]
  exact ⟨rfl, by intro r acc h; simp at h⟩

theorem process_retry_mem (env : WorkerEnv) (wp : WorkerPool) (job : EmbeddingJob)
    (r : EmbeddingJob) (acc : Bool)
    (h : WorkerAction.enqueueRetry r acc ∈ (processEmbeddingJob env wp job).2) :
    r.retryCount = job.retryCount + 1 ∧ r.jobID = job.jobID ++ "-retry" ∧
      job.retryCount < maxEmbeddingRetries := by
  unfold processEmbeddingJob at h
  split_ifs at h with h1 h2 h3 h4 h5
  · simp at h
  · rcases List.mem_append.mp h with h | h
    · exact absurd h (persist_no_retry env _ _ r acc)
    · obtain ⟨hr, hlt⟩ := requeue_retry_mem env wp job _ r acc h
      subst hr
      exact ⟨rfl, rfl, hlt⟩
  · rcases List.mem_append.mp h with h | h
    · exact absurd h (persist_no_retry env _ _ r acc)
    · obtain ⟨hr, hlt⟩ := requeue_retry_mem env wp job _ r acc h
      subst hr
      exact ⟨rfl, rfl, hlt⟩
  · exact absurd h (persist_no_retry env _ _ r acc)
  · obtain ⟨hr, hlt⟩ := requeue_retry_mem env wp job _ r acc h
    subst hr
    exact ⟨rfl, rfl, hlt⟩
  · simp at h

theorem retry_chain_bound :
    ∀ (rest : List EmbeddingJob) (j : EmbeddingJob),
      List.Chain' RetryStep (j :: rest) →
      rest = [] ∨ rest.length + j.retryCount ≤ maxEmbeddingRetries := by
  intro rest
  induction rest with
  | nil => intro j _; exact Or.inl rfl
  | cons b rest2 ih =>
    intro j h
    rw [List.chain'_cons] at h
    obtain ⟨⟨env, wp, acc, hmem⟩, hchain⟩ := h
    obtain ⟨hrc, hjid, hlt⟩ := process_retry_mem env wp j b acc hmem
    rcases ih b hchain with rfl | hle
    · right
      simp only [List.length_singleton]
      unfold maxEmbeddingRetries at hlt ⊢
      omega
    · right
      simp only [List.length_cons]
      omega

/-! ## Claim C3 -/

/-- C3: across a retry chain, each generation adds exactly one to the
retry count and one `-retry` suffix to the job id and carries exactly
the failed chunks; a requeue is ever attempted only while
`retryCount < 3`, once `retryCount ≥ 3` only the FAILED status write for
the failed chunks' datasource ids is emitted, and any chain of jobs
linked by enqueued retries that starts at `retryCount = 0` contains at
most 4 jobs. -/
theorem embeddingRetry_chain :
    (∀ (env : WorkerEnv) (wp : WorkerPool) (j : EmbeddingJob)
        (fc : List ContentChunk), j.retryCount < maxEmbeddingRetries →
      ∃ acc, WorkerAction.enqueueRetry
        { jobID := j.jobID ++ "-retry", userID := j.userID, chatbotID := j.chatbotID,
          chunks := fc, retryCount := j.retryCount + 1 } acc ∈
        (requeueFailedChunks env wp j fc).2) ∧
    (∀ (env : WorkerEnv) (wp : WorkerPool) (j : EmbeddingJob)
        (fc : List ContentChunk) (r : EmbeddingJob) (acc : Bool),
      WorkerAction.enqueueRetry r acc ∈ (requeueFailedChunks env wp j fc).2 →
      r.retryCount = j.retryCount + 1 ∧ r.jobID = j.jobID ++ "-retry" ∧
        r.chunks = fc ∧ j.retryCount < maxEmbeddingRetries) ∧
    (∀ (env : WorkerEnv) (wp : WorkerPool) (j : EmbeddingJob)
        (fc : List ContentChunk), maxEmbeddingRetries ≤ j.retryCount →
      env.hasDb = true → distinctDatasourceIDs fc ≠ [] →
      (requeueFailedChunks env wp j fc).2 =
        [WorkerAction.statusWrite (distinctDatasourceIDs fc) "FAILED"]) ∧
    (∀ a b, RetryStep a b → b.retryCount = a.retryCount + 1 ∧
      b.jobID = a.jobID ++ "-retry" ∧ a.retryCount < maxEmbeddingRetries) ∧
    (∀ (js : List EmbeddingJob) (j0 : EmbeddingJob), List.Chain' RetryStep js →
      js.head? = some j0 → j0.retryCount = 0 → js.length ≤ 4) := by
  refine ⟨?_, ?_, ?_, ?_, ?_⟩
  · intro env wp j fc hlt
    exact requeue_retry_exists env wp j fc hlt
  · intro env wp j fc r acc h
    obtain ⟨hr, hlt⟩ := requeue_retry_mem env wp j fc r acc h
    subst hr
    exact ⟨rfl, rfl, rfl, hlt⟩
  · intro env wp j fc hge hdb hids
    exact (requeue_exhausted env wp j fc hge hdb hids).1
  · rintro a b ⟨env, wp, acc, hmem⟩
    obtain ⟨h1, h2, h3⟩ := process_retry_mem env wp a b acc hmem
    exact ⟨h1, h2, h3⟩
  · intro js j0 hchain hhead hrc
    cases js with
    | nil => simp
    | cons j rest =>
      simp only [List.head?_cons, Option.some_inj] at hhead
      subst hhead
      rcases retry_chain_bound rest _ hchain with rfl | hle
      · simp
      · simp only [List.length_cons]
        unfold maxEmbeddingRetries at hle
        omega

/-- Witness for C3: a concrete two-job chain (every chunk fails to
embed, the retry is accepted) has length at most 4. -/
theorem embeddingRetry_chain_witness :
    ([⟨"j", "u", "c", [⟨"ds1", 0, "hello", [], []⟩], 0⟩,
      ⟨"j-retry", "u", "c", [⟨"ds1", 0, "hello", [], []⟩], 1⟩] :
        List EmbeddingJob).length ≤ 4 := by
  apply embeddingRetry_chain.2.2.2.2
    [⟨"j", "u", "c", [⟨"ds1", 0, "hello", [], []⟩], 0⟩,
     ⟨"j-retry", "u", "c", [⟨"ds1", 0, "hello", [], []⟩], 1⟩]
    ⟨"j", "u", "c", [⟨"ds1", 0, "hello", [], []⟩], 0⟩
  · rw [List.chain'_cons]
    constructor
    · refine ⟨⟨true, false, fun _ => none, true, true⟩, ⟨false, [], [], 1⟩, true, ?_⟩
      decide
    · simp [List.chain'_singleton]
  · rfl
  · rfl

theorem successful_embedding_ne {env : WorkerEnv} {job : EmbeddingJob}
    (hvec : ∀ ch v, env.embedOutcome ch = some v → v ≠ []) :
    ∀ ch ∈ successfulChunksOf env job, ch.embedding ≠ [] := by
  intro ch hch
  unfold successfulChunksOf at hch
  rcases List.mem_filterMap.mp hch with ⟨orig, horig, hmap⟩
  rcases Option.map_eq_some'.mp hmap with ⟨v, hv, rfl⟩
  exact hvec orig v hv

theorem rows_ne_of_chunks {job : EmbeddingJob}
    (hne : job.chunks ≠ []) (hemb : ∀ ch ∈ job.chunks, ch.embedding ≠ []) :
    embeddingRowsOf job ≠ [] := by
  intro hrows
  unfold embeddingRowsOf at hrows
  rw [List.filterMap_eq_nil] at hrows
  cases hc : job.chunks with
  | nil => exact hne hc
  | cons ch rest =>
    have h1 := hrows ch (by rw [hc]; simp)
    rw [if_neg (hemb ch (by rw [hc]; simp))] at h1
    cases h1

theorem rows_ne_of_dsIds {job : EmbeddingJob} (h : persistDsIds job ≠ []) :
    embeddingRowsOf job ≠ [] := by
  intro hrows
  unfold persistDsIds at h
  unfold embeddingRowsOf at hrows
  rw [List.filterMap_eq_nil] at hrows
  apply h
  have hinner : (job.chunks.filterMap fun ch =>
      if ch.embedding = [] then none
      else if ch.datasourceID = "" then none else some ch.datasourceID) = [] := by
    rw [List.filterMap_eq_nil]
    intro ch hch
    have := hrows ch hch
    by_cases hb : ch.embedding = []
    · rw [if_pos hb]
    · rw [if_neg hb] at this
      cases this
  rw [hinner]
  rfl

theorem persist_insertFail {env : WorkerEnv} {job : EmbeddingJob} {mark : Bool}
    (hins : env.insertOk = false) (hrows : embeddingRowsOf job ≠ []) :
    persistEmbeddingsWithStatus env job mark =
      ([WorkerAction.insertEmbeddings job.userID job.chatbotID (embeddingRowsOf job)],
        false) := by
  unfold persistEmbeddingsWithStatus
  rw [if_neg hrows, if_pos hins]

theorem processedChunks_shape (env : WorkerEnv) (job : EmbeddingJob) :
    (processedChunks env job).length = job.chunks.length ∧
      (processedChunks env job).map (fun ch => ch.datasourceID) =
        job.chunks.map (fun ch => ch.datasourceID) := by
  constructor
  · unfold processedChunks
    rw [List.length_map]
  · unfold processedChunks
    rw [List.map_map]
    apply List.map_congr_left
    intro ch _
    simp only [Function.comp]
    cases env.embedOutcome ch <;> rfl

/-! ## Claim C4 -/

/-- C4: when the batch insert of the successfully embedded chunks fails,
the worker routes the ENTIRE chunk set of the job (every original chunk,
as mutated by the embedding loop — same length and same datasource ids)
into the retry path, and no datasource of that job receives a COMPLETED
write in that pass. -/
theorem persistFailure_wholeJobRetry (env : WorkerEnv) (wp : WorkerPool)
    (job : EmbeddingJob) (hemb : env.hasEmbedder = true) (hdb : env.hasDb = true)
    (hins : env.insertOk = false) (hsucc : successfulChunksOf env job ≠ [])
    (hvec : ∀ ch v, env.embedOutcome ch = some v → v ≠ []) :
    (∀ ids, WorkerAction.statusWrite ids "COMPLETED" ∉
      (processEmbeddingJob env wp job).2) ∧
    ((processedChunks env job).length = job.chunks.length ∧
      (processedChunks env job).map (fun ch => ch.datasourceID) =
        job.chunks.map (fun ch => ch.datasourceID)) ∧
    (job.retryCount < maxEmbeddingRetries →
      ∃ acc, WorkerAction.enqueueRetry (retryJobOf job (processedChunks env job)) acc ∈
        (processEmbeddingJob env wp job).2) ∧
    (maxEmbeddingRetries ≤ job.retryCount →
      distinctDatasourceIDs (processedChunks env job) ≠ [] →
      WorkerAction.statusWrite (distinctDatasourceIDs (processedChunks env job)) "FAILED" ∈
        (processEmbeddingJob env wp job).2) := by
  have hchne : (successJobOf env job).chunks ≠ [] := hsucc
  have hrows : embeddingRowsOf (successJobOf env job) ≠ [] :=
    rows_ne_of_chunks hchne (successful_embedding_ne hvec)
  have hp := @persist_insertFail env (successJobOf env job)
    (decide (failedChunksOf env job = [])) hins hrows
  have hred : processEmbeddingJob env wp job =
      ((requeueFailedChunks env wp job (processedChunks env job)).1,
        [WorkerAction.insertEmbeddings (successJobOf env job).userID
          (successJobOf env job).chatbotID (embeddingRowsOf (successJobOf env job))] ++
          (requeueFailedChunks env wp job (processedChunks env job)).2) := by
    unfold processEmbeddingJob
    rw [if_neg (by rw [hemb]; simp), if_pos ⟨hdb, hsucc⟩, hp]
    simp
  refine ⟨?_, processedChunks_shape env job, ?_, ?_⟩
  · intro ids h
    rw [hred] at h
    rcases List.mem_append.mp h with h | h
    · simp at h
    · exact requeue_no_completed env wp job _ ids h
  · intro hlt
    obtain ⟨acc, hacc⟩ := requeue_retry_exists env wp job (processedChunks env job) hlt
    exact ⟨acc, by rw [hred]; exact List.mem_append.mpr (Or.inr hacc)⟩
  · intro hge hids
    have := (requeue_exhausted env wp job (processedChunks env job) hge hdb hids).1
    rw [hred]
    exact List.mem_append.mpr (Or.inr (by rw [this]; simp))

/-- Witness for C4 at a concrete job of one chunk whose embedding
succeeds but whose insert fails. -/
theorem persistFailure_wholeJobRetry_witness :
    ∃ acc, WorkerAction.enqueueRetry
      (retryJobOf ⟨"j", "u", "c", [⟨"ds1", 0, "hello", [], []⟩], 0⟩
        (processedChunks ⟨true, true, fun _ => some [1], false, true⟩
          ⟨"j", "u", "c", [⟨"ds1", 0, "hello", [], []⟩], 0⟩)) acc ∈
      (processEmbeddingJob ⟨true, true, fun _ => some [1], false, true⟩
        ⟨false, [], [], 1⟩ ⟨"j", "u", "c", [⟨"ds1", 0, "hello", [], []⟩], 0⟩).2 := by
  apply (persistFailure_wholeJobRetry ⟨true, true, fun _ => some [1], false, true⟩
    ⟨false, [], [], 1⟩ ⟨"j", "u", "c", [⟨"ds1", 0, "hello", [], []⟩], 0⟩
    rfl rfl rfl (by decide) ?_).2.2.1 (by decide)
  intro ch v h
  injection h with h
  subst h
  simp

/-! ## Claim C5 -/

/-- C5: a COMPLETED status write happens only when the job's failed
chunk set is empty and the batch insert succeeded — a pass with a failed
chunk never writes COMPLETED — and conversely, with an embedder and
database present, a fully successful pass with a successful insert does
write COMPLETED for the distinct datasource ids of the job's chunks. -/
theorem completedWrite_conditions (env : WorkerEnv) (wp : WorkerPool)
    (job : EmbeddingJob) :
    (∀ ids, WorkerAction.statusWrite ids "COMPLETED" ∈
        (processEmbeddingJob env wp job).2 →
      failedChunksOf env job = [] ∧ env.insertOk = true) ∧
    (failedChunksOf env job ≠ [] →
      ∀ ids, WorkerAction.statusWrite ids "COMPLETED" ∉
        (processEmbeddingJob env wp job).2) ∧
    (env.hasEmbedder = true → env.hasDb = true →
      successfulChunksOf env job ≠ [] → failedChunksOf env job = [] →
      env.insertOk = true → persistDsIds (successJobOf env job) ≠ [] →
      WorkerAction.statusWrite (persistDsIds (successJobOf env job)) "COMPLETED" ∈
        (processEmbeddingJob env wp job).2) := by
  have honly : ∀ ids, WorkerAction.statusWrite ids "COMPLETED" ∈
      (processEmbeddingJob env wp job).2 →
      failedChunksOf env job = [] ∧ env.insertOk = true := by
    intro ids h
    unfold processEmbeddingJob at h
    split_ifs at h with h1 h2 h3 h4 h5
    · simp at h
    · rcases List.mem_append.mp h with h | h
      · obtain ⟨hm, hins, _⟩ := persist_completed_mem env _ _ ids h
        exact ⟨of_decide_eq_true hm, hins⟩
      · exact absurd h (requeue_no_completed env wp job _ ids)
    · rcases List.mem_append.mp h with h | h
      · obtain ⟨hm, hins, _⟩ := persist_completed_mem env _ _ ids h
        exact ⟨of_decide_eq_true hm, hins⟩
      · exact absurd h (requeue_no_completed env wp job _ ids)
    · obtain ⟨hm, hins, _⟩ := persist_completed_mem env _ _ ids h
      exact ⟨of_decide_eq_true hm, hins⟩
    · exact absurd h (requeue_no_completed env wp job _ ids)
    · simp at h
  refine ⟨honly, ?_, ?_⟩
  · intro hne ids h
    exact hne (honly ids h).1
  · intro he hdb hsucc hfail hins hdsids
    have hrows : embeddingRowsOf (successJobOf env job) ≠ [] :=
      rows_ne_of_dsIds hdsids
    have hp : persistEmbeddingsWithStatus env (successJobOf env job)
        (decide (failedChunksOf env job = [])) =
        ([WorkerAction.insertEmbeddings (successJobOf env job).userID
            (successJobOf env job).chatbotID (embeddingRowsOf (successJobOf env job)),
          WorkerAction.statusWrite (persistDsIds (successJobOf env job)) "COMPLETED"],
          env.statusOk) := by
      unfold persistEmbeddingsWithStatus
      rw [if_neg hrows, if_neg (by rw [hins]; simp),
        if_pos ⟨by simp [hfail], hdsids⟩]
    unfold processEmbeddingJob
    rw [if_neg (by rw [he]; simp), if_pos ⟨hdb, hsucc⟩, hp]
    cases hso : env.statusOk
    · simp
    · rw [if_neg (by simp), if_neg (by simp [hfail])]
      simp

/-- Witness for C5 at a concrete fully successful pass. -/
theorem completedWrite_conditions_witness :
    WorkerAction.statusWrite
        (persistDsIds (successJobOf ⟨true, true, fun _ => some [1], true, true⟩
          ⟨"j", "u", "c", [⟨"ds1", 0, "hello", [], []⟩], 0⟩)) "COMPLETED" ∈
      (processEmbeddingJob ⟨true, true, fun _ => some [1], true, true⟩
        ⟨false, [], [], 1⟩ ⟨"j", "u", "c", [⟨"ds1", 0, "hello", [], []⟩], 0⟩).2 := by
  exact (completedWrite_conditions ⟨true, true, fun _ => some [1], true, true⟩
    ⟨false, [], [], 1⟩ ⟨"j", "u", "c", [⟨"ds1", 0, "hello", [], []⟩], 0⟩).2.2
    rfl rfl (by decide) (by decide) rfl (by decide)

/-! ## Helper lemmas: the CSV row loop -/

theorem csvRowAux_eq (headers : List String) :
    ∀ (row : List String) (j : Nat),
      csvRowAux headers j row =
        (((List.zip (headers.drop j) row).map
            (fun hv => hv.1 ++ ": " ++ hv.2 ++ "\n")).foldr (fun a b => a ++ b) "",
          List.zip (headers.drop j) row) := by
  intro row
  induction row with
  | nil => intro j; simp [csvRowAux]
  | cons v rest ih =>
    intro j
    unfold csvRowAux
    cases hh : headers.get? j with
    | none =>
      have hdrop : headers.drop j = [] :=
        List.drop_eq_nil_iff_le.mpr (List.get?_eq_none.mp hh)
      have hdrop1 : headers.drop (j + 1) = [] := by
        rw [List.drop_eq_nil_iff_le]
        have := List.get?_eq_none.mp hh
        omega
      rw [ih (j + 1), hdrop, hdrop1]
      simp
    | some h =>
      obtain ⟨hlt, hget⟩ := List.get?_eq_some.mp hh
      have hj : headers[j] = h := by
        simpa [List.get_eq_getElem] using hget
      have hdrop : headers.drop j = h :: headers.drop (j + 1) := by
        rw [List.drop_eq_getElem_cons hlt, hj]
      rw [ih (j + 1), hdrop, List.zip_cons_cons]
      rfl

theorem csvRecords_sameLength (fuel : Nat) :
    ∀ (n : Nat) (lines : List (List Char)) (rs : List (List String)),
      csvRecords fuel (some n) lines = Except.ok rs →
      ∀ r ∈ rs, r.length = n := by
  induction fuel with
  | zero =>
    intro n lines rs h r hr
    cases lines with
    | nil =>
      simp only [csvRecords] at h
      injection h with h1
      subst h1
      simp at hr
    | cons l ls =>
      simp only [csvRecords] at h
      exact Except.noConfusion h
  | succ fuel ih =>
    intro n lines rs h r hr
    cases lines with
    | nil =>
      simp only [csvRecords] at h
      injection h with h1
      subst h1
      simp at hr
    | cons l ls =>
      simp only [csvRecords] at h
      by_cases hnl : l = ['\n']
      · rw [if_pos hnl] at h
        exact ih n ls rs h r hr
      · rw [if_neg hnl] at h
        cases hf : csvFieldsAux (l.length + csvTotalLen ls + 2) l ls [] with
        | error e =>
          rw [hf] at h
          exact Except.noConfusion h
        | ok p =>
          obtain ⟨fields, rest⟩ := p
          rw [hf] at h
          dsimp only at h
          by_cases hlen : fields.length = n
          · rw [if_pos hlen] at h
            cases hrec : csvRecords fuel (some n) rest with
            | error e =>
              rw [hrec] at h
              exact Except.noConfusion h
            | ok rs2 =>
              rw [hrec] at h
              injection h with h1
              subst h1
              cases hr with
              | head => simp [hlen]
              | tail _ hr2 => exact ih n rest rs2 hrec r hr2
          · rw [if_neg hlen] at h
            exact Except.noConfusion h

theorem csvRecords_firstLength (fuel : Nat) :
    ∀ (lines : List (List Char)) (r0 : List String) (rs : List (List String)),
      csvRecords fuel none lines = Except.ok (r0 :: rs) →
      ∀ r ∈ rs, r.length = r0.length := by
  induction fuel with
  | zero =>
    intro lines r0 rs h
    cases lines with
    | nil =>
      simp only [csvRecords] at h
      simp at h
    | cons l ls =>
      simp only [csvRecords] at h
      exact Except.noConfusion h
  | succ fuel ih =>
    intro lines r0 rs h r hr
    cases lines with
    | nil =>
      simp only [csvRecords] at h
      simp at h
    | cons l ls =>
      simp only [csvRecords] at h
      by_cases hnl : l = ['\n']
      · rw [if_pos hnl] at h
        exact ih ls r0 rs h r hr
      · rw [if_neg hnl] at h
        cases hf : csvFieldsAux (l.length + csvTotalLen ls + 2) l ls [] with
        | error e =>
          rw [hf] at h
          exact Except.noConfusion h
        | ok p =>
          obtain ⟨fields, rest⟩ := p
          rw [hf] at h
          dsimp only at h
          cases hrec : csvRecords fuel (some fields.length) rest with
          | error e =>
            rw [hrec] at h
            exact Except.noConfusion h
          | ok rs2 =>
            rw [hrec] at h
            injection h with h1
            injection h1 with h2 h3
            subst h3
            have hlen := csvRecords_sameLength fuel fields.length rest rs2 hrec r hr
            rw [← h2]
            simpa using hlen

/-! ## Claim C8 -/

/-- C8 (counterexample): on the specification's own example CSV the
decoder emits two chunks with the right bodies, indices and row numbers,
but carries NO `headers` key in the per-chunk metadata — the headers
live only in the document-level metadata, so the claim's "per-chunk
metadata carrying ... headers" fails. -/
theorem csvChunkMetadata_counterexample :
    ((csvProcess "name,age\nAda,36\nGrace,85\n".toList "people.csv" "c1" "u1").toOption.map
      fun pc => pc.chunks.length) = some 2 ∧
    ((csvProcess "name,age\nAda,36\nGrace,85\n".toList "people.csv" "c1" "u1").toOption.map
      fun pc => pc.chunks.map fun ch => (ch.chunkIndex, ch.content)) =
      some [(0, "name: Ada\nage: 36"), (1, "name: Grace\nage: 85")] ∧
    ((csvProcess "name,age\nAda,36\nGrace,85\n".toList "people.csv" "c1" "u1").toOption.map
      fun pc => pc.chunks.map fun ch => ch.metadata.lookup "row_number") =
      some [some (MetaVal.num 2), some (MetaVal.num 3)] ∧
    ((csvProcess "name,age\nAda,36\nGrace,85\n".toList "people.csv" "c1" "u1").toOption.map
      fun pc => pc.chunks.map fun ch => ch.metadata.lookup "headers") =
      some [none, none] ∧
    ((csvProcess "name,age\nAda,36\nGrace,85\n".toList "people.csv" "c1" "u1").toOption.map
      fun pc => pc.metadata.lookup "headers") =
      some (some (MetaVal.headerList ["name", "age"])) := by
  refine ⟨by decide, by decide, by decide, by decide, by decide⟩

/-- C8 (amended): the decoder returns an error for any read error of the
csv reader (bare quote, unterminated quoted field, or a record whose
field count differs from the first record's), for an empty file and for
a header-only file; otherwise every data row has exactly the header's
field count and yields exactly one chunk whose body is one
`header: value` line per column, with `chunkIndex = rowNumber - 2` and
per-chunk metadata carrying the filename, the 1-based row number
counting the header, and the row object — with the headers array in the
document-level metadata rather than per chunk. -/
theorem csvProcess_contract (content : List Char) (filename chatbotID userID : String) :
    (∀ e, csvReadAll content = Except.error e →
      csvProcess content filename chatbotID userID = Except.error (csvErrMsg e)) ∧
    (csvReadAll content = Except.ok [] →
      csvProcess content filename chatbotID userID = Except.error "CSV file is empty") ∧
    (∀ headers, csvReadAll content = Except.ok [headers] →
      csvProcess content filename chatbotID userID =
        Except.error "CSV file has no data rows") ∧
    (∀ headers dataRows, csvReadAll content = Except.ok (headers :: dataRows) →
      dataRows ≠ [] →
      (∀ row ∈ dataRows, row.length = headers.length) ∧
      ∃ pc, csvProcess content filename chatbotID userID = Except.ok pc ∧
        pc.chunks.length = dataRows.length ∧
        pc.metadata.lookup "headers" = some (MetaVal.headerList headers) ∧
        (∀ i row, dataRows.get? i = some row →
          ∃ ch, pc.chunks.get? i = some ch ∧
            ch.chunkIndex = i ∧
            ch.content = csvRowBody headers row ∧
            ch.metadata.lookup "filename" = some (MetaVal.str filename) ∧
            ch.metadata.lookup "row_number" = some (MetaVal.num (i + 2)) ∧
            ch.metadata.lookup "row_data" =
              some (MetaVal.rowData (List.zip headers row)) ∧
            ch.metadata.lookup "headers" = none)) := by
  refine ⟨?_, ?_, ?_, ?_⟩
  · intro e he
    unfold csvProcess
    rw [he]
  · intro hparse
    unfold csvProcess
    rw [hparse]
  · intro headers hparse
    unfold csvProcess
    rw [hparse]
    rfl
  · intro headers dataRows hparse hne
    refine ⟨?_, ?_⟩
    · intro r hr
      unfold csvReadAll at hparse
      exact csvRecords_firstLength _ _ headers dataRows hparse r hr
    · unfold csvProcess
      rw [hparse]
      dsimp only
      rw [if_neg hne]
      refine ⟨_, rfl, ?_, ?_, ?_⟩
      · simp
      · rfl
      · intro i row hrow
        refine ⟨{ content := String.mk (trimSpace (csvRowAux headers 0 row).1.toList),
                  chunkIndex := i,
                  metadata := [("filename", MetaVal.str filename),
                    ("row_number", MetaVal.num (i + 2)),
                    ("row_data", MetaVal.rowData (csvRowAux headers 0 row).2)] },
          ?_, rfl, ?_, rfl, rfl, ?_, rfl⟩
        · rw [List.get?_map, List.get?_enum, hrow]
          rfl
        · show String.mk (trimSpace (String.toList (csvRowAux headers 0 row).1)) =
            csvRowBody headers row
          rw [csvRowAux_eq headers row 0]
          unfold csvRowBody
          simp
        · show some (MetaVal.rowData (csvRowAux headers 0 row).2) =
            some (MetaVal.rowData (List.zip headers row))
          rw [csvRowAux_eq headers row 0]
          simp

/-- Witness for C8's amended statement at the specification's example
CSV. -/
theorem csvProcess_contract_witness :
    ∃ pc, csvProcess "name,age\nAda,36\nGrace,85\n".toList "people.csv" "c1" "u1" =
        Except.ok pc ∧ pc.chunks.length = 2 := by
  obtain ⟨-, pc, hok, hlen, -, -⟩ :=
    (csvProcess_contract "name,age\nAda,36\nGrace,85\n".toList "people.csv" "c1" "u1").2.2.2
      ["name", "age"] [["Ada", "36"], ["Grace", "85"]] (by rfl) (by decide)
  exact ⟨pc, hok, by simpa using hlen⟩

end DbIngestor
